import Mathlib

/-!
# Verification of the polymarket-keeper market-enrichment core

A shallow embedding of the market enrichment and inclusion-filtering core of
the `polymarket-keeper` repository, with theorems checking the claims of its
natural-language specification.

Embedded modules:
* `src/generate/transform.ts` — `parseOutcomes`
* `src/generate/category.ts` — `inferSapienceCategorySlug` (modelled from the
  spec, see its doc comment)
* `src/generate/shortName.ts` — abbreviation tables, `getTeamAbbreviation`,
  `getAssetAbbreviation`, `getMonthAbbreviation`, `inferShortName` (via a
  small backtracking regular-expression engine with JavaScript semantics)
* `src/generate/pipeline/` — `Filter`, `UnionFilter`, `IntersectionFilter`,
  `BinaryMarketsFilter`, `runPipeline`
* `src/llm/openrouter.ts` — `levenshteinDistance`, `findClosestConditionId`
* `src/llm/enrichment.ts` — `getFallbackEnrichment`, `marketToEnrichmentInput`,
  `enrichMarkets`
* `src/utils/fetch.ts` — `fetchWithRetry`

JavaScript strings are modelled as Lean `String`/`List Char` (the inputs in
question are ASCII), the run-scoped `Map` objects as insertion-ordered
association lists, and the external collaborators (the LLM HTTP calls, the
builtin `JSON.parse`, `fetch`, `Math.random`) as explicit function
parameters/oracles.
-/

namespace PolymarketKeeper

/-! ## JavaScript string primitives -/

/-- JavaScript `\w` (word character): `[A-Za-z0-9_]`. -/
def isWordChar (c : Char) : Bool :=
  c.isAlpha || c.isDigit || c == '_'

/-- A position boundary is word-adjacent iff the character there is a word
character; the edges of the string count as non-word. -/
def isWordOpt : Option Char → Bool
  | some c => isWordChar c
  | none => false

/-- Does `kw` occur in `text` starting at the current position with JavaScript
`\b` word boundaries on both sides?  `prev` is the character immediately
before the current position. `kw` is assumed to begin and end with word
characters (true of every keyword alternative in the source regexes). -/
def wordAtHere (kw : List Char) (prev : Option Char) (text : List Char) : Bool :=
  kw.isPrefixOf text && !isWordOpt prev && !isWordOpt (text.drop kw.length).head?

/-- Does `kw` occur anywhere in `text` as a `\b kw \b` match? -/
def wordOccursAux (kw : List Char) (prev : Option Char) : List Char → Bool
  | [] => wordAtHere kw prev []
  | c :: rest => wordAtHere kw prev (c :: rest) || wordOccursAux kw (some c) rest

/-- JavaScript `/\b(kw1|kw2|...)\b/.test(text)` for literal keyword
alternatives: some keyword occurs in `text` delimited by word boundaries. -/
def anyKeywordMatches (kws : List String) (text : List Char) : Bool :=
  kws.any (fun kw => wordOccursAux kw.data none text)

/-- Substring containment, JavaScript `hay.includes(needle)`. -/
def strIncludes (needle hay : List Char) : Bool :=
  match hay with
  | [] => needle.isPrefixOf ([] : List Char)
  | c :: rest => needle.isPrefixOf (c :: rest) || strIncludes needle rest

/-- ASCII lower-casing of a string, JavaScript `s.toLowerCase()` on the ASCII
inputs in question. -/
def jsToLower (s : String) : String :=
  String.mk (s.data.map Char.toLower)

/-- ASCII upper-casing, JavaScript `s.toUpperCase()`. -/
def jsToUpper (s : String) : String :=
  String.mk (s.data.map Char.toUpper)

/-- JavaScript `s.trim()`: strip leading and trailing whitespace. -/
def jsTrim (s : String) : String :=
  String.mk
    (((s.data.dropWhile Char.isWhitespace).reverse.dropWhile Char.isWhitespace).reverse)

/-- JavaScript `s.split(sep)` for a single-character separator: split at every
occurrence, keeping empty pieces. -/
def splitOnCharAux (c : Char) : List Char → List Char → List String
  | [], acc => [String.mk acc.reverse]
  | x :: rest, acc =>
    if x == c then String.mk acc.reverse :: splitOnCharAux c rest []
    else splitOnCharAux c rest (x :: acc)

def jsSplitOnChar (c : Char) (s : String) : List String :=
  splitOnCharAux c s.data []

/-- JavaScript string truthiness: non-empty. -/
def truthyStr (s : String) : Bool := s != ""

/-- JavaScript truthiness of a possibly-null/undefined string. -/
def truthyOptStr : Option String → Bool
  | some s => truthyStr s
  | none => false

/-! ## Data model: market records and parsed JSON values -/

/-- A runtime JSON value as far as `parseOutcomes` inspects it: either an
array — whose elements the program treats as strings, per its own types
(`parseOutcomes(outcomes: string[] | string): string[]`) — or any non-array
value. -/
inductive JsValue where
  | arr (xs : List String)
  | notArr
deriving DecidableEq, Repr

/-- Model of the JavaScript builtin `JSON.parse` (an external platform
function): it either throws (`Except.error`) or returns a value. Every
theorem about `parseOutcomes` quantifies over this function. -/
abbrev JsonParse := String → Except String JsValue

/-- The runtime shape of a market record's `outcomes` field
(`string[] | string`, defensively also anything else). -/
inductive OutcomesField where
  | arr (xs : List String)
  | str (s : String)
  | other
deriving DecidableEq, Repr

/-- `PolymarketMarket`, restricted to the fields the enrichment core reads.
The optional-chaining accesses `events?.[0]?.title`,
`events?.[0]?.series?.[0]?.slug`, `events?.[0]?.series?.[0]?.title` and
`events?.[0]?.seriesSlug` are flattened into one optional field each. -/
structure Market where
  conditionId : String
  question : String
  description : Option String
  slug : String
  eventTitle : Option String
  seriesSlug : Option String
  seriesTitle : Option String
  eventSeriesSlug : Option String
  outcomes : OutcomesField
  sportsMarketType : Option String
deriving DecidableEq, Repr

/-- `parseOutcomes` from `src/generate/transform.ts`: an array is returned
unchanged; a string is `JSON.parse`d inside try/catch and kept only if the
result is an array; everything else yields `[]`. -/
def parseOutcomes (jp : JsonParse) : OutcomesField → List String
  | .arr xs => xs
  | .str s =>
    match jp s with
    | .ok (.arr parsed) => parsed
    | .ok .notArr => []
    | .error _ => []
  | .other => []

/-! ## Category classifier -/

/-- The sports keyword alternatives of the category classifier's first rule. -/
def sportsKeywords : List String :=
  ["pga", "nba", "nfl", "nhl", "mlb", "epl", "premier-league", "uefa", "fifa",
   "world-cup", "super-bowl", "bowl", "playoff", "championship", "bundesliga",
   "la-liga", "serie-a", "ligue-1", "champions-league", "valorant",
   "league-of-legends", "dota", "soccer", "football", "basketball", "baseball",
   "hockey", "tennis", "golf", "ufc", "boxing", "mma", "formula-1", "cricket",
   "rugby", "buccaneers", "chiefs", "eagles", "49ers", "cowboys", "packers",
   "patriots", "lakers", "warriors", "celtics", "yankees", "dodgers", "mets",
   "red-sox"]

def cryptoKeywords : List String :=
  ["bitcoin", "btc", "ethereum", "eth", "solana", "sol", "xrp", "crypto",
   "cryptocurrency", "blockchain", "defi", "nft", "token", "coin", "satoshi"]

def weatherKeywords : List String :=
  ["weather", "temperature", "hottest", "coldest", "hurricane", "tornado",
   "flood", "drought", "rain", "snow", "climate", "celsius", "fahrenheit",
   "el-nino"]

def techScienceKeywords : List String :=
  ["ai", "artificial-intelligence", "chatgpt", "openai", "tech", "technology",
   "science", "nasa", "space", "spacex", "tesla", "apple", "google",
   "microsoft", "amazon", "meta", "robot", "quantum", "semiconductor", "chip"]

def economyFinanceKeywords : List String :=
  ["stock", "stocks", "s&p", "spx", "dow", "nasdaq", "earning", "market",
   "fed", "federal-reserve", "interest-rate", "inflation", "gdp", "economy",
   "economic", "finance", "financial", "bank", "dollar", "euro", "yen",
   "bond", "treasury"]

def geopoliticsKeywords : List String :=
  ["election", "president", "presidential", "senate", "senator", "congress",
   "governor", "prime-minister", "parliament", "vote", "voting", "poll",
   "republican", "democrat", "party", "political", "politics", "war",
   "military", "nato", "ukraine", "russia", "china", "israel", "palestine",
   "iran", "korea", "taiwan", "diplomacy", "treaty", "sanction"]

def cultureKeywords : List String :=
  ["oscar", "emmy", "grammy", "award", "movie", "film", "music", "album",
   "celebrity", "actor", "actress", "director", "streaming", "netflix",
   "spotify", "pop-culture", "entertainment", "fashion", "art", "artist"]

/-- The lower-cased search text the classifier matches against: question,
slug and the event-series fields, with absent/empty parts dropped
(`[...].filter(Boolean).join(' ').toLowerCase()`). -/
def categorySearchText (m : Market) : List Char :=
  (String.intercalate " "
    (([some m.question, some m.slug, m.seriesSlug, m.seriesTitle,
       m.eventSeriesSlug].filterMap id).filter truthyStr)).data.map Char.toLower

/-- Modelled from the spec: `inferSapienceCategorySlug` of
`src/generate/category.ts` — the deterministic category classifier the
enrichment orchestrator consults — is not among the provided sources (only
its callers in `src/llm/enrichment.ts` and the repository documentation
`docs/market-enrichment.md` are). Per the spec and those docs it tests the
search text against each category's keyword set in the fixed priority order
sports → crypto → weather → tech-science → economy-finance → geopolitics →
culture, first match wins, and returns the sentinel `"unknown"` when nothing
matches (the `'geopolitics'` default is substituted only downstream, in
`getFallbackEnrichment`). The keyword sets are taken verbatim from the
in-repository variant of the classifier
(`src/generate/pipeline/filters/exclude-crypto.ts` sources, matching the
docs' keyword table). Categories are represented as raw slug strings. -/
def inferSapienceCategorySlug (m : Market) : String :=
  let searchText := categorySearchText m
  if truthyOptStr m.sportsMarketType || anyKeywordMatches sportsKeywords searchText then
    "sports"
  else if anyKeywordMatches cryptoKeywords searchText then
    "crypto"
  else if anyKeywordMatches weatherKeywords searchText then
    "weather"
  else if anyKeywordMatches techScienceKeywords searchText then
    "tech-science"
  else if anyKeywordMatches economyFinanceKeywords searchText then
    "economy-finance"
  else if anyKeywordMatches geopoliticsKeywords searchText then
    "geopolitics"
  else if anyKeywordMatches cultureKeywords searchText then
    "culture"
  else
    "unknown"

/-! ## A small backtracking regular-expression engine

The short-name rules of `src/generate/shortName.ts` are JavaScript regexes.
They are embedded as abstract syntax trees over the constructors below and
run by a backtracking matcher with JavaScript semantics: alternation prefers
the left branch, greedy repetition prefers to consume, lazy repetition
prefers not to, the leftmost successful start position wins. All the source
patterns carry the `i` flag, so literal characters compare case-insensitively.
The matcher carries fuel; the fuel supplied by `matchAnchoredAt` bounds the
backtracking depth generously (every repetition body in the embedded patterns
consumes at least one character per iteration). -/

inductive RE where
  | eps
  | lit (c : Char)
  | cls (p : Char → Bool)
  | seq (a b : RE)
  | alt (a b : RE)
  | starG (a : RE)
  | starL (a : RE)
  | optG (a : RE)
  | grp (n : Nat) (a : RE)
  | wb
  | eos

/-- Captured groups, most recent binding first. -/
abbrev Caps := List (Nat × String)

def getCap (caps : Caps) (n : Nat) : Option String :=
  (caps.find? (fun p => p.1 == n)).map (·.2)

/-- The matcher: `prev` is the character just before the current position
(for `\b`), `k` the continuation receiving the rest of the input and the
captures accumulated so far. -/
def mrun : Nat → RE → Option Char → List Char → Caps →
    (Option Char → List Char → Caps → Option Caps) → Option Caps
  | 0, _, _, _, _, _ => none
  | fuel + 1, r, prev, s, caps, k =>
    match r with
    | .eps => k prev s caps
    | .lit c =>
      match s with
      | [] => none
      | x :: rest => if x.toLower == c.toLower then k (some x) rest caps else none
    | .cls p =>
      match s with
      | [] => none
      | x :: rest => if p x then k (some x) rest caps else none
    | .seq a b => mrun fuel a prev s caps (fun p2 s2 c2 => mrun fuel b p2 s2 c2 k)
    | .alt a b =>
      match mrun fuel a prev s caps k with
      | some res => some res
      | none => mrun fuel b prev s caps k
    | .optG a =>
      match mrun fuel a prev s caps k with
      | some res => some res
      | none => k prev s caps
    | .starG a =>
      match mrun fuel a prev s caps (fun p2 s2 c2 => mrun fuel (.starG a) p2 s2 c2 k) with
      | some res => some res
      | none => k prev s caps
    | .starL a =>
      match k prev s caps with
      | some res => some res
      | none => mrun fuel a prev s caps (fun p2 s2 c2 => mrun fuel (.starL a) p2 s2 c2 k)
    | .grp n a =>
      mrun fuel a prev s caps (fun p2 s2 c2 =>
        k p2 s2 ((n, String.mk (s.take (s.length - s2.length))) :: c2))
    | .wb => if isWordOpt prev != isWordOpt s.head? then k prev s caps else none
    | .eos =>
      match s with
      | [] => k prev s caps
      | _ :: _ => none

def reSize : RE → Nat
  | .eps | .wb | .eos | .lit _ | .cls _ => 1
  | .seq a b | .alt a b => reSize a + reSize b + 1
  | .starG a | .starL a | .optG a | .grp _ a => reSize a + 1

/-- Attempt a match of `r` at the current position only (position given by
`prev`/`s`); models a `^`-anchored `String.prototype.match`. -/
def matchAt (r : RE) (prev : Option Char) (s : List Char) : Option Caps :=
  mrun ((reSize r + 2) * (s.length + 2)) r prev s [] (fun _ _ caps => some caps)

/-- `question.match(re)` for a `^`-anchored pattern. -/
def matchAnchored (r : RE) (q : String) : Option Caps :=
  matchAt r none q.data

/-- `question.match(re)` for an unanchored pattern: the leftmost position at
which a match starts wins. -/
def searchFrom (r : RE) (prev : Option Char) (s : List Char) : Option Caps :=
  match matchAt r prev s with
  | some caps => some caps
  | none =>
    match s with
    | [] => none
    | c :: rest => searchFrom r (some c) rest

def matchSearch (r : RE) (q : String) : Option Caps :=
  searchFrom r none q.data

/-! ### Pattern-building helpers -/

/-- A case-insensitive literal string. -/
def rstr (s : String) : RE := s.data.foldr (fun c r => RE.seq (RE.lit c) r) RE.eps

def rcat (rs : List RE) : RE := rs.foldr RE.seq RE.eps

def ralts : List RE → RE
  | [] => RE.cls (fun _ => false)
  | [r] => r
  | r :: rest => RE.alt r (ralts rest)

/-- `.` (the embedded inputs are single-line). -/
def rdot : RE := RE.cls (fun c => c != '\n')

/-- `\s` -/
def rws : RE := RE.cls Char.isWhitespace

/-- `\S` -/
def rnws : RE := RE.cls (fun c => !c.isWhitespace)

/-- `\d` -/
def rdigit : RE := RE.cls Char.isDigit

/-- `\w` -/
def rword : RE := RE.cls isWordChar

def plusG (r : RE) : RE := RE.seq r (RE.starG r)

def plusL (r : RE) : RE := RE.seq r (RE.starL r)

/-- `.+?` -/
def lazyChars : RE := plusL rdot

/-- `.+` -/
def greedyChars : RE := plusG rdot

/-- `\s+` -/
def wsPlus : RE := plusG rws

/-- `\s*` -/
def wsStar : RE := RE.starG rws

/-- `\d+(?:\.\d+)?` -/
def rnum : RE := RE.seq (plusG rdigit) (RE.optG (RE.seq (RE.lit '.') (plusG rdigit)))

/-- `[+-]?\d+(?:\.\d+)?` -/
def rsignedNum : RE := RE.seq (RE.optG (RE.cls (fun c => c == '+' || c == '-'))) rnum

/-- `[\d,]+` -/
def rmoney : RE := plusG (RE.cls (fun c => c.isDigit || c == ','))

/-! ## Short-name generation (`src/generate/shortName.ts`)

The static abbreviation records of the source are modelled as
insertion-ordered association lists with exact-key lookup. -/

/-- Team abbreviations — NBA, NFL, MLB, eSports. -/
def TEAM_ABBREVIATIONS : List (String × String) :=
  [("Lakers", "LAL"), ("Celtics", "BOS"), ("Warriors", "GSW"), ("Knicks", "NYK"),
   ("Bulls", "CHI"), ("Heat", "MIA"), ("Nuggets", "DEN"), ("Suns", "PHX"),
   ("Bucks", "MIL"), ("Cavaliers", "CLE"), ("76ers", "PHI"), ("Sixers", "PHI"),
   ("Mavericks", "DAL"), ("Clippers", "LAC"), ("Kings", "SAC"), ("Hawks", "ATL"),
   ("Nets", "BKN"), ("Jazz", "UTA"), ("Timberwolves", "MIN"), ("Pelicans", "NOP"),
   ("Rockets", "HOU"), ("Spurs", "SAS"), ("Magic", "ORL"), ("Pacers", "IND"),
   ("Hornets", "CHA"), ("Raptors", "TOR"), ("Wizards", "WAS"), ("Thunder", "OKC"),
   ("Blazers", "POR"), ("Pistons", "DET"), ("Grizzlies", "MEM"),
   ("Chiefs", "KC"), ("Eagles", "PHI"), ("Bills", "BUF"), ("Cowboys", "DAL"),
   ("Dolphins", "MIA"), ("Ravens", "BAL"), ("Bengals", "CIN"), ("Lions", "DET"),
   ("Packers", "GB"), ("49ers", "SF"), ("Seahawks", "SEA"), ("Commanders", "WAS"),
   ("Steelers", "PIT"), ("Browns", "CLE"), ("Chargers", "LAC"), ("Raiders", "LV"),
   ("Broncos", "DEN"), ("Vikings", "MIN"), ("Bears", "CHI"), ("Saints", "NO"),
   ("Buccaneers", "TB"), ("Falcons", "ATL"), ("Panthers", "CAR"),
   ("Cardinals", "ARI"), ("Rams", "LAR"), ("Giants", "NYG"), ("Jets", "NYJ"),
   ("Patriots", "NE"), ("Colts", "IND"), ("Texans", "HOU"), ("Jaguars", "JAX"),
   ("Titans", "TEN"),
   ("Yankees", "NYY"), ("Dodgers", "LAD"), ("Red Sox", "BOS"), ("Mets", "NYM"),
   ("Cubs", "CHC"), ("Astros", "HOU"), ("Braves", "ATL"), ("Phillies", "PHI"),
   ("Vitality", "VIT"), ("NaVi", "NAVI"), ("Natus Vincere", "NAVI"),
   ("G2", "G2"), ("Fnatic", "FNC"), ("Cloud9", "C9"), ("Team Liquid", "TL"),
   ("Team Spirit", "TS"), ("Astralis", "AST"), ("FaZe", "FAZE"),
   ("MOUZ", "MOUZ"), ("Heroic", "HRC"), ("ENCE", "ENCE"), ("BIG", "BIG"),
   ("Complexity", "COL"), ("Evil Geniuses", "EG"), ("100 Thieves", "100T"),
   ("Sentinels", "SEN"), ("LOUD", "LOUD"), ("DRX", "DRX"), ("Gen", "GEN"),
   ("T1", "T1")]

/-- Asset abbreviations for crypto/finance. -/
def ASSET_ABBREVIATIONS : List (String × String) :=
  [("Bitcoin", "BTC"), ("Ethereum", "ETH"), ("Solana", "SOL"), ("XRP", "XRP"),
   ("Cardano", "ADA"), ("Dogecoin", "DOGE"), ("Polkadot", "DOT"),
   ("Avalanche", "AVAX"), ("Chainlink", "LINK"), ("Polygon", "MATIC"),
   ("S&P 500", "SPX"), ("S&P 500 (SPX)", "SPX"), ("Nasdaq", "NDX"),
   ("Dow Jones", "DJI"), ("Gold", "XAU"), ("Silver", "XAG"),
   ("Tesla", "TSLA"), ("Apple", "AAPL"), ("Microsoft", "MSFT"),
   ("Amazon", "AMZN"), ("Google", "GOOG"), ("Meta", "META"),
   ("Nvidia", "NVDA")]

/-- Stat abbreviations for player props. -/
def STAT_ABBREVIATIONS : List (String × String) :=
  [("points", "pts"), ("rebounds", "reb"), ("assists", "ast"),
   ("steals", "stl"), ("blocks", "blk"), ("turnovers", "to"),
   ("3-pointers", "3pts"), ("fantasy points", "fpts")]

/-- Month abbreviations. -/
def MONTH_ABBREVIATIONS : List (String × String) :=
  [("january", "Jan"), ("february", "Feb"), ("march", "Mar"), ("april", "Apr"),
   ("may", "May"), ("june", "Jun"), ("july", "Jul"), ("august", "Aug"),
   ("september", "Sep"), ("october", "Oct"), ("november", "Nov"),
   ("december", "Dec")]

/-- `/^[aeiou]/i.test(s)` -/
def startsWithVowel (s : String) : Bool :=
  match s.data.head? with
  | some c => ("aeiou".data.contains c.toLower)
  | none => false

/-- `getTeamAbbreviation`: table lookup, else a trimmed name of at most 3
characters verbatim upper-cased, else for a vowel-initial name its first
3 letters (`replace(/[^a-z]/gi, '').slice(0, 3)`), else its first 3
consonants if it has at least 3 (`replace(/[^bcdfghjklmnpqrstvwxyz]/gi, '')`),
else its first 3 characters — all upper-cased. -/
def getTeamAbbreviation (name : String) : String :=
  let trimmed := jsTrim name
  match TEAM_ABBREVIATIONS.lookup trimmed with
  | some abbr => abbr
  | none =>
    if trimmed.length ≤ 3 then
      jsToUpper trimmed
    else if startsWithVowel trimmed then
      let letters := trimmed.data.filter Char.isAlpha
      jsToUpper (String.mk (letters.take 3))
    else
      let consonants := trimmed.data.filter
        (fun c => "bcdfghjklmnpqrstvwxyz".data.contains c.toLower)
      if 3 ≤ consonants.length then
        jsToUpper (String.mk (consonants.take 3))
      else
        jsToUpper (String.mk (trimmed.data.take 3))

/-- `getAssetAbbreviation`: table lookup or the trimmed name itself. -/
def getAssetAbbreviation (name : String) : String :=
  let trimmed := jsTrim name
  (ASSET_ABBREVIATIONS.lookup trimmed).getD trimmed

/-- Group 1 of `dateStr.match(/(\d{1,2})(?:st|nd|rd|th)?/)`: the first run of
digits, truncated to 2; empty when the string has no digit. -/
def firstDayDigits : List Char → String
  | [] => ""
  | c :: rest =>
    if c.isDigit then
      match rest with
      | d :: _ => if d.isDigit then String.mk [c, d] else String.mk [c]
      | [] => String.mk [c]
    else firstDayDigits rest

/-- `getMonthAbbreviation`: the first month name (in calendar order) contained
in the lower-cased date string gives `abbrev + day`; otherwise the date
string is returned unchanged. -/
def getMonthAbbreviation (dateStr : String) : String :=
  let lower := jsToLower dateStr
  match MONTH_ABBREVIATIONS.find? (fun p => strIncludes p.1.data lower.data) with
  | some p => p.2 ++ firstDayDigits dateStr.data
  | none => dateStr

/-! ### The sixteen short-name rules

Each `reRuleN` is the literal AST of the corresponding source regex; each
`shortNameRuleN` is the body of the corresponding `if` block of
`inferShortName`. Guaranteed-participating capture groups are read with a
`""` default (JavaScript destructuring would yield the captured string). -/

/-- Rule 1 pattern:
`/^(.+?):\s+(Points|Rebounds|Assists|Steals|Blocks|Turnovers|3-Pointers|Fantasy Points)\s+Over\s+(\d+(?:\.\d+)?)$/i` -/
def rePlayerProp : RE :=
  rcat [RE.grp 1 lazyChars, RE.lit ':', wsPlus,
    RE.grp 2 (ralts [rstr "Points", rstr "Rebounds", rstr "Assists",
      rstr "Steals", rstr "Blocks", rstr "Turnovers", rstr "3-Pointers",
      rstr "Fantasy Points"]),
    wsPlus, rstr "Over", wsPlus, RE.grp 3 rnum, RE.eos]

/-- Rule 1: player props — `"Player: Stat Over X.X"`. -/
def shortNameRule1 (question : String) : Option String :=
  (matchAnchored rePlayerProp question).map fun caps =>
    let player := (getCap caps 1).getD ""
    let stat := (getCap caps 2).getD ""
    let value := (getCap caps 3).getD ""
    -- player.split(' ').pop() || player
    let lastName :=
      -- player.split(' ').pop() || player; Char.ofNat 32 is the space character
      match (jsSplitOnChar (Char.ofNat 32) player).getLast? with
      | some s => if truthyStr s then s else player
      | none => player
    let statAbbrev := (STAT_ABBREVIATIONS.lookup (jsToLower stat)).getD ""
    lastName ++ " O" ++ value ++ statAbbrev

/-- Rule 2 pattern:
`/^(.+?)\s+vs\.?\s+(.+?):\s+(?:(1H|2H|1Q|2Q|3Q|4Q)\s+)?O\/U\s+(\d+(?:\.\d+)?)$/i` -/
def reOverUnder : RE :=
  rcat [RE.grp 1 lazyChars, wsPlus, rstr "vs", RE.optG (RE.lit '.'), wsPlus,
    RE.grp 2 lazyChars, RE.lit ':', wsPlus,
    RE.optG (rcat [RE.grp 3 (ralts [rstr "1H", rstr "2H", rstr "1Q",
      rstr "2Q", rstr "3Q", rstr "4Q"]), wsPlus]),
    rstr "O/U", wsPlus, RE.grp 4 rnum, RE.eos]

/-- Rule 2: over/under totals — `"X vs. Y: O/U X.X"`. -/
def shortNameRule2 (question : String) : Option String :=
  (matchAnchored reOverUnder question).map fun caps =>
    let team1 := (getCap caps 1).getD ""
    let team2 := (getCap caps 2).getD ""
    let period := getCap caps 3
    let total := (getCap caps 4).getD ""
    let abbrev1 := getTeamAbbreviation team1
    let abbrev2 := getTeamAbbreviation team2
    let periodStr := if truthyOptStr period then " " ++ period.getD "" else ""
    abbrev1 ++ "/" ++ abbrev2 ++ periodStr ++ " O" ++ total

/-- Rule 3 pattern: `/^(?:(\S+)\s+)?Spread:\s*(.+?)\s*\(([+-]?\d+(?:\.\d+)?)\)$/i` -/
def reSpread : RE :=
  rcat [RE.optG (rcat [RE.grp 1 (plusG rnws), wsPlus]),
    rstr "Spread:", wsStar, RE.grp 2 lazyChars, wsStar,
    RE.lit '(', RE.grp 3 rsignedNum, RE.lit ')', RE.eos]

/-- Rule 3: spread markets — `"Spread: Team (-X.5)"`. -/
def shortNameRule3 (question : String) : Option String :=
  (matchAnchored reSpread question).map fun caps =>
    let period := getCap caps 1
    let team := (getCap caps 2).getD ""
    let spread := (getCap caps 3).getD ""
    let abbr := getTeamAbbreviation team
    let periodStr := if truthyOptStr period then " " ++ period.getD "" else ""
    abbr ++ " " ++ spread ++ periodStr

/-- The outcome labels that do not count as team names. -/
def standardOutcomes : List String := ["Yes", "No", "Over", "Under", "Up", "Down"]

/-- Rule 4 pattern: `/^(?:.+?:\s+)?(.+?)\s+vs\.?\s+(.+?)(?:\s*[-:].+)?$/i` -/
def reMatchup : RE :=
  rcat [RE.optG (rcat [lazyChars, RE.lit ':', wsPlus]),
    RE.grp 1 lazyChars, wsPlus, rstr "vs", RE.optG (RE.lit '.'), wsPlus,
    RE.grp 2 lazyChars,
    RE.optG (rcat [wsStar, RE.cls (fun c => c == '-' || c == ':'), greedyChars]),
    RE.eos]

/-- Rule 4: team matchups — `"X vs. Y"` with team-name outcomes; the
abbreviations come from the two outcome labels, not the matched groups. -/
def shortNameRule4 (question : String) (outcomes : List String) : Option String :=
  let hasTeamOutcomes :=
    match outcomes with
    | [o1, o2] => !standardOutcomes.contains o1 && !standardOutcomes.contains o2
    | _ => false
  if hasTeamOutcomes then
    (matchAnchored reMatchup question).map fun _ =>
      match outcomes with
      | [o1, o2] => getTeamAbbreviation o1 ++ " win vs " ++ getTeamAbbreviation o2
      | _ => ""
  else
    none

/-- Rule 5 pattern: `/^(.+?)\s+vs\.?\s+(.+?):\s+Both\s+Teams\s+to\s+Score$/i` -/
def reBtts : RE :=
  rcat [RE.grp 1 lazyChars, wsPlus, rstr "vs", RE.optG (RE.lit '.'), wsPlus,
    RE.grp 2 lazyChars, RE.lit ':', wsPlus,
    rstr "Both", wsPlus, rstr "Teams", wsPlus, rstr "to", wsPlus,
    rstr "Score", RE.eos]

/-- Rule 5: both teams to score. -/
def shortNameRule5 (question : String) : Option String :=
  (matchAnchored reBtts question).map fun caps =>
    let team1 := (getCap caps 1).getD ""
    let team2 := (getCap caps 2).getD ""
    "BTTS " ++ getTeamAbbreviation team1 ++ "/" ++ getTeamAbbreviation team2

/-- Rule 6 pattern: `/^(.+?)\s+to\s+win\s+(\d+)\s+maps?\?$/i` -/
def reMaps : RE :=
  rcat [RE.grp 1 lazyChars, wsPlus, rstr "to", wsPlus, rstr "win", wsPlus,
    RE.grp 2 (plusG rdigit), wsPlus, rstr "map", RE.optG (RE.lit 's'),
    RE.lit '?', RE.eos]

/-- Rule 6: eSports maps — `"X to win N maps?"`. -/
def shortNameRule6 (question : String) : Option String :=
  (matchAnchored reMaps question).map fun caps =>
    let team := (getCap caps 1).getD ""
    let count := (getCap caps 2).getD ""
    getTeamAbbreviation team ++ " " ++ count ++ "+ maps"

/-- Rule 7 pattern:
`/^(?:(\S+)\s+)?(?:Map\s+|Game\s+)?Handicap:\s*(.+?)\s*\(([+-]?\d+(?:\.\d+)?)\)$/i` -/
def reHandicap : RE :=
  rcat [RE.optG (rcat [RE.grp 1 (plusG rnws), wsPlus]),
    RE.optG (RE.alt (RE.seq (rstr "Map") wsPlus) (RE.seq (rstr "Game") wsPlus)),
    rstr "Handicap:", wsStar, RE.grp 2 lazyChars, wsStar,
    RE.lit '(', RE.grp 3 rsignedNum, RE.lit ')', RE.eos]

/-- Rule 7: handicap markets (the source destructures only groups 2 and 3). -/
def shortNameRule7 (question : String) : Option String :=
  (matchAnchored reHandicap question).map fun caps =>
    let team := (getCap caps 2).getD ""
    let handicap := (getCap caps 3).getD ""
    getTeamAbbreviation team ++ " " ++ handicap

/-- Rule 8 pattern: `/^(.+?)\s+Up\s+or\s+Down\s+(?:-\s+|on\s+)(.+?)(?:\?)?$/i` -/
def rePriceUpDown : RE :=
  rcat [RE.grp 1 lazyChars, wsPlus, rstr "Up", wsPlus, rstr "or", wsPlus,
    rstr "Down", wsPlus,
    RE.alt (RE.seq (RE.lit '-') wsPlus) (RE.seq (rstr "on") wsPlus),
    RE.grp 2 lazyChars, RE.optG (RE.lit '?'), RE.eos]

/-- Rule 8: price movement — `"Asset Up or Down - Date"`. -/
def shortNameRule8 (question : String) : Option String :=
  (matchAnchored rePriceUpDown question).map fun caps =>
    let asset := (getCap caps 1).getD ""
    let dateStr := (getCap caps 2).getD ""
    getAssetAbbreviation asset ++ " up " ++ getMonthAbbreviation dateStr

/-- Rule 9 first pattern (unanchored):
`/Will\s+Elon\s+(?:Musk\s+)?(?:tweet|post).+?about\s+(.+?)\??$/i` -/
def reElonTweet : RE :=
  rcat [rstr "Will", wsPlus, rstr "Elon", wsPlus,
    RE.optG (RE.seq (rstr "Musk") wsPlus),
    RE.alt (rstr "tweet") (rstr "post"), plusL rdot,
    rstr "about", wsPlus, RE.grp 1 lazyChars, RE.optG (RE.lit '?'), RE.eos]

/-- Rule 9, first half: Elon tweets about a topic. -/
def shortNameRule9a (question : String) : Option String :=
  (matchSearch reElonTweet question).map fun caps =>
    let topic := (getCap caps 1).getD ""
    "Elon tweets " ++ getAssetAbbreviation topic

/-- Rule 9 second pattern (unanchored):
`/Elon\s+(?:Musk\s+)?(?:tweets?|posts?)\s+(\d+[-\d]*)\+?\s+(?:times\s+)?(.+?)(?:\?)?$/i` -/
def reElonCount : RE :=
  rcat [rstr "Elon", wsPlus, RE.optG (RE.seq (rstr "Musk") wsPlus),
    RE.alt (RE.seq (rstr "tweet") (RE.optG (RE.lit 's')))
      (RE.seq (rstr "post") (RE.optG (RE.lit 's'))),
    wsPlus,
    RE.grp 1 (RE.seq (plusG rdigit)
      (RE.starG (RE.cls (fun c => c == '-' || c.isDigit)))),
    RE.optG (RE.lit '+'), wsPlus, RE.optG (RE.seq (rstr "times") wsPlus),
    RE.grp 2 lazyChars, RE.optG (RE.lit '?'), RE.eos]

/-- Rule 9, second half: Elon tweet counts. -/
def shortNameRule9b (question : String) : Option String :=
  (matchSearch reElonCount question).map fun caps =>
    let count := (getCap caps 1).getD ""
    let period := (getCap caps 2).getD ""
    "Elon " ++ count ++ "+ " ++ getMonthAbbreviation period

/-- Rule 10 pattern (unanchored, no end anchor):
`/\b(fed|federal\s+reserve)\b.+?(cut|hike|raise|hold).+?(\w+(?:\s+\d+)?)/i` -/
def reFed : RE :=
  rcat [RE.wb,
    RE.grp 1 (RE.alt (rstr "fed") (rcat [rstr "federal", wsPlus, rstr "reserve"])),
    RE.wb, plusL rdot,
    RE.grp 2 (ralts [rstr "cut", rstr "hike", rstr "raise", rstr "hold"]),
    plusL rdot,
    RE.grp 3 (RE.seq (plusG rword) (RE.optG (RE.seq wsPlus (plusG rdigit))))]

/-- Rule 10: Fed/economic — the source destructures groups 2 and 3. -/
def shortNameRule10 (question : String) : Option String :=
  (matchSearch reFed question).map fun caps =>
    let action := (getCap caps 2).getD ""
    let period := (getCap caps 3).getD ""
    let actionAbbrev := if jsToLower action == "raise" then "hike" else jsToLower action
    "Fed " ++ actionAbbrev ++ " " ++ getMonthAbbreviation period

/-- Rule 11 pattern (unanchored):
`/\b(bitcoin|btc|ethereum|eth|solana|sol)\b.+?(above|below|over|under)\s*\$?([\d,]+k?)/i` -/
def reCryptoThreshold : RE :=
  rcat [RE.wb,
    RE.grp 1 (ralts [rstr "bitcoin", rstr "btc", rstr "ethereum", rstr "eth",
      rstr "solana", rstr "sol"]),
    RE.wb, plusL rdot,
    RE.grp 2 (ralts [rstr "above", rstr "below", rstr "over", rstr "under"]),
    wsStar, RE.optG (RE.lit '$'),
    RE.grp 3 (RE.seq rmoney (RE.optG (RE.lit 'k')))]

/-- JavaScript `s.charAt(0).toUpperCase() + s.slice(1)`. -/
def jsCapitalize (s : String) : String :=
  match s.data with
  | [] => ""
  | c :: rest => String.mk (c.toUpper :: rest)

/-- Rule 11: crypto thresholds — `"Bitcoin above/below $X?"`. The comparison
word is compared (and capitalized) exactly as captured. -/
def shortNameRule11 (question : String) : Option String :=
  (matchSearch reCryptoThreshold question).map fun caps =>
    let asset := (getCap caps 1).getD ""
    let comparison := (getCap caps 2).getD ""
    let value := (getCap caps 3).getD ""
    let abbr := getAssetAbbreviation (jsCapitalize asset)
    let symbol := if comparison == "above" || comparison == "over" then ">" else "<"
    abbr ++ " " ++ symbol ++ "$" ++ value

/-- Rule 12 pattern (unanchored):
`/price\s+of\s+(\w+)\s+be\s+between\s+\$?([\d,]+)\s+and\s+\$?([\d,]+)/i` -/
def rePriceBetween : RE :=
  rcat [rstr "price", wsPlus, rstr "of", wsPlus, RE.grp 1 (plusG rword),
    wsPlus, rstr "be", wsPlus, rstr "between", wsPlus, RE.optG (RE.lit '$'),
    RE.grp 2 rmoney, wsPlus, rstr "and", wsPlus, RE.optG (RE.lit '$'),
    RE.grp 3 rmoney]

/-- Rule 12: price between a range. -/
def shortNameRule12 (question : String) : Option String :=
  (matchSearch rePriceBetween question).map fun caps =>
    let asset := (getCap caps 1).getD ""
    let low := (getCap caps 2).getD ""
    let high := (getCap caps 3).getD ""
    getAssetAbbreviation asset ++ " $" ++ low ++ "-" ++ high

/-- Rule 13 pattern (unanchored):
`/price\s+of\s+(\w+)\s+be\s+(above|below|greater\s+than|less\s+than)\s+\$?([\d,]+)/i` -/
def rePriceAboveBelow : RE :=
  rcat [rstr "price", wsPlus, rstr "of", wsPlus, RE.grp 1 (plusG rword),
    wsPlus, rstr "be", wsPlus,
    RE.grp 2 (ralts [rstr "above", rstr "below",
      rcat [rstr "greater", wsPlus, rstr "than"],
      rcat [rstr "less", wsPlus, rstr "than"]]),
    wsPlus, RE.optG (RE.lit '$'), RE.grp 3 rmoney]

/-- Rule 13: price above/below on a date. -/
def shortNameRule13 (question : String) : Option String :=
  (matchSearch rePriceAboveBelow question).map fun caps =>
    let asset := (getCap caps 1).getD ""
    let comparison := (getCap caps 2).getD ""
    let value := (getCap caps 3).getD ""
    let symbol :=
      if strIncludes "above".data comparison.data
          || strIncludes "greater".data comparison.data then ">" else "<"
    getAssetAbbreviation asset ++ " " ++ symbol ++ "$" ++ value

/-- Rule 14 pattern (unanchored): `/(\w+)\s+(reach|dip\s+to)\s+\$?([\d,]+)/i` -/
def reCryptoReachDip : RE :=
  rcat [RE.grp 1 (plusG rword), wsPlus,
    RE.grp 2 (RE.alt (rstr "reach") (rcat [rstr "dip", wsPlus, rstr "to"])),
    wsPlus, RE.optG (RE.lit '$'), RE.grp 3 rmoney]

/-- Rule 14: crypto reach/dip. -/
def shortNameRule14 (question : String) : Option String :=
  (matchSearch reCryptoReachDip question).map fun caps =>
    let asset := (getCap caps 1).getD ""
    let action := (getCap caps 2).getD ""
    let value := (getCap caps 3).getD ""
    let actionAbbrev :=
      if strIncludes "dip".data (jsToLower action).data then "dip" else "reach"
    getAssetAbbreviation asset ++ " " ++ actionAbbrev ++ " $" ++ value

/-- Rule 15 pattern (unanchored):
`/temperature\s+increase\s+by\s+(?:between\s+)?([\d.]+)(?:º?C)?(?:\s+and\s+([\d.]+)(?:º?C)?)?\s+in\s+(\w+)/i` -/
def reTemp : RE :=
  rcat [rstr "temperature", wsPlus, rstr "increase", wsPlus, rstr "by", wsPlus,
    RE.optG (RE.seq (rstr "between") wsPlus),
    RE.grp 1 (plusG (RE.cls (fun c => c.isDigit || c == '.'))),
    RE.optG (RE.seq (RE.optG (RE.lit 'º')) (RE.lit 'C')),
    RE.optG (rcat [wsPlus, rstr "and", wsPlus,
      RE.grp 2 (plusG (RE.cls (fun c => c.isDigit || c == '.'))),
      RE.optG (RE.seq (RE.optG (RE.lit 'º')) (RE.lit 'C'))]),
    wsPlus, rstr "in", wsPlus, RE.grp 3 (plusG rword)]

/-- Rule 15: temperature increase. -/
def shortNameRule15 (question : String) : Option String :=
  (matchSearch reTemp question).map fun caps =>
    let low := (getCap caps 1).getD ""
    let high := getCap caps 2
    let month := (getCap caps 3).getD ""
    let monthAbbrev := getMonthAbbreviation month
    if truthyOptStr high then
      "Temp +" ++ low ++ "-" ++ high.getD "" ++ "C " ++ monthAbbrev
    else
      "Temp +" ++ low ++ "C " ++ monthAbbrev

/-- Rule 16 pattern: `/^(.+?)\s+Team\s+Total:\s+O\/U\s+(\d+(?:\.\d+)?)$/i` -/
def reTeamTotal : RE :=
  rcat [RE.grp 1 lazyChars, wsPlus, rstr "Team", wsPlus, rstr "Total:",
    wsPlus, rstr "O/U", wsPlus, RE.grp 2 rnum, RE.eos]

/-- Rule 16: team total over/under. -/
def shortNameRule16 (question : String) : Option String :=
  (matchAnchored reTeamTotal question).map fun caps =>
    let team := (getCap caps 1).getD ""
    let total := (getCap caps 2).getD ""
    getTeamAbbreviation team ++ " Total O" ++ total

/-- First rule that fires: each `if (match) return ...` block of the source
either returns its short name or falls through to the next. -/
def firstRule : List (Option String) → Option String
  | [] => none
  | some r :: _ => some r
  | none :: rest => firstRule rest

/-- `inferShortName` of `src/generate/shortName.ts`: the sixteen rules in
source order, first match wins, `none` when no pattern matches (the signal
to use the LLM). -/
def inferShortName (jp : JsonParse) (m : Market) : Option String :=
  let question := m.question
  let outcomes := parseOutcomes jp m.outcomes
  firstRule
    [shortNameRule1 question, shortNameRule2 question, shortNameRule3 question,
     shortNameRule4 question outcomes, shortNameRule5 question,
     shortNameRule6 question, shortNameRule7 question, shortNameRule8 question,
     shortNameRule9a question, shortNameRule9b question,
     shortNameRule10 question, shortNameRule11 question,
     shortNameRule12 question, shortNameRule13 question,
     shortNameRule14 question, shortNameRule15 question,
     shortNameRule16 question]

/-! ## Filter pipeline (`src/generate/pipeline/`) -/

/-- `FilterResult<T>`: the partition produced by one filter. -/
structure FilterResult (α : Type) where
  kept : List α
  removed : List α

/-- `Filter<T>`: a named predicate partitioning a list into kept/removed. -/
structure Filter (α : Type) where
  name : String
  description : String
  apply : List α → FilterResult α

/-- The kept/removed loop shared by every primitive filter: walk the items in
order and push each onto `kept` or `removed` according to the predicate. -/
def partitionBy (p : α → Bool) (items : List α) : FilterResult α :=
  ⟨items.filter p, items.filter (fun x => !p x)⟩

/-- `UnionFilter` (combinators.ts): keep an item iff at least one sub-filter,
applied to the singleton list holding that item, would keep it. -/
def UnionFilter (filters : List (Filter α)) : Filter α :=
  { name := String.intercalate "-or-" (filters.map (·.name)),
    description := "Keep items matching: " ++
      String.intercalate " OR " (filters.map (·.name)),
    apply := partitionBy fun item =>
      filters.any fun f => 0 < (f.apply [item]).kept.length }

/-- `IntersectionFilter` (combinators.ts): keep an item iff every sub-filter,
applied to the singleton list holding that item, would keep it. -/
def IntersectionFilter (filters : List (Filter α)) : Filter α :=
  { name := String.intercalate "-and-" (filters.map (·.name)),
    description := "Keep items matching: " ++
      String.intercalate " AND " (filters.map (·.name)),
    apply := partitionBy fun item =>
      filters.all fun f => 0 < (f.apply [item]).kept.length }

/-- `BinaryMarketsFilter` (filters/binary-markets.ts): keep only markets whose
parsed outcomes list has exactly 2 entries. -/
def BinaryMarketsFilter (jp : JsonParse) : Filter Market :=
  { name := "binary-markets",
    description := "Keep only markets with exactly 2 outcomes",
    apply := partitionBy fun m => (parseOutcomes jp m.outcomes).length == 2 }

/-- Per-stage statistics recorded by the pipeline runner. -/
structure FilterStats where
  name : String
  description : String
  inputCount : Nat
  keptCount : Nat
  removedCount : Nat

/-- `PipelineResult<T>` of `runPipeline`. -/
structure PipelineResult (α : Type) where
  output : List α
  removed : List α
  stats : List FilterStats

/-- `runPipeline` (pipeline/index.ts): fold the filter list left to right,
feeding each stage's kept list to the next stage, accumulating the removed
items and the per-stage statistics in stage order. -/
def runPipeline (items : List α) : List (Filter α) → PipelineResult α
  | [] => ⟨items, [], []⟩
  | f :: rest =>
    let r := f.apply items
    let tail := runPipeline r.kept rest
    ⟨tail.output, r.removed ++ tail.removed,
      ⟨f.name, f.description, items.length, r.kept.length, r.removed.length⟩
        :: tail.stats⟩

/-! ## Response reconciler distance functions (`src/llm/openrouter.ts`) -/

/-- One row-update step of the Levenshtein dynamic program. Walking `a` with
the previous matrix row (`diag :: prevRest`) and the entry `left` just
computed for the current row: the new entry is `diag` on equal characters and
otherwise `min(diag+1, left+1, up+1)` (substitution, insertion, deletion).
The empty-list branches are unreachable: the previous row is always one
longer than the remaining text. -/
def levRowStep (bc : Char) : List Char → List Nat → Nat → List Nat
  | [], _, _ => []
  | _ :: _, [], _ => []
  | ac :: arest, diag :: prevRest, left =>
    let up := (prevRest.head?).getD 0
    let cur :=
      if bc == ac then diag
      else Nat.min (diag + 1) (Nat.min (left + 1) (up + 1))
    cur :: levRowStep bc arest prevRest cur

/-- `levenshteinDistance(a, b)`: the textbook dynamic program of the source,
row `0` being `0..a.length` and row `i` starting with `i`; the answer is
`matrix[b.length][a.length]`. -/
def levenshteinDistance (aS bS : String) : Nat :=
  let a := aS.data
  let b := bS.data
  let row0 : List Nat := List.range (a.length + 1)
  let finalRow :=
    (b.foldl
      (fun (acc : List Nat × Nat) bc =>
        let i := acc.2 + 1
        (i :: levRowStep bc a acc.1 i, i))
      (row0, 0)).1
  finalRow.getD a.length 0

/-- One candidate step of `findClosestConditionId`: strictly closer candidates
replace the current best. -/
def closestStep (id : String) (acc : Option String × Nat) (validId : String) :
    Option String × Nat :=
  let distance := levenshteinDistance id validId
  if distance < acc.2 then (some validId, distance) else acc

/-- `findClosestConditionId(id, validIds)`: best distance starts at the
threshold 5; a candidate is accepted only when strictly closer than the
current best, so the function returns a match iff some valid id is at
distance `< 5`, and then the first id attaining the minimum distance. -/
def findClosestConditionId (id : String) (validIds : List String) : Option String :=
  (validIds.foldl (closestStep id) (none, 5)).1

/-! ## `fetchWithRetry` (`src/utils/fetch.ts`)

The external `fetch` is an oracle giving, per attempt index, either a
response with a status code or a thrown transport error; `Math.random()`
enters the backoff delay through a jitter oracle (the value
`Math.random() * 1000` of each retry). Delays are rationals in milliseconds;
the model records the delay the source would sleep before each retry. -/

inductive FetchOutcome where
  | resp (status : Nat)
  | err (msg : String)

/-- Result of a `fetchWithRetry` run: the returned status or the thrown error
message, how many attempts the loop made, and the backoff delays slept
between attempts. -/
structure FetchResult where
  result : Except String Nat
  attemptsUsed : Nat
  delays : List ℚ

/-- The retry loop from attempt index `attempt`: a 5xx response retries while
`attempt < maxRetries`, any other response returns immediately; a thrown
error retries while `attempt < maxRetries` and is rethrown on the last
attempt (the loop's trailing `throw lastError` — `lastError` is exactly the
error of the final attempt). Each retry sleeps
`baseDelayMs * 2 ^ attempt + jitter attempt`. -/
def fetchLoop (oracle : Nat → FetchOutcome) (jitter : Nat → ℚ)
    (baseDelayMs : ℚ) (maxRetries : Nat) (attempt : Nat) (delays : List ℚ) :
    FetchResult :=
  match oracle attempt with
  | .resp status =>
    if h : 500 ≤ status ∧ status < 600 ∧ attempt < maxRetries then
      fetchLoop oracle jitter baseDelayMs maxRetries (attempt + 1)
        (delays ++ [baseDelayMs * 2 ^ attempt + jitter attempt])
    else ⟨.ok status, attempt + 1, delays⟩
  | .err e =>
    if h : attempt < maxRetries then
      fetchLoop oracle jitter baseDelayMs maxRetries (attempt + 1)
        (delays ++ [baseDelayMs * 2 ^ attempt + jitter attempt])
    else ⟨.error e, attempt + 1, delays⟩
termination_by maxRetries + 1 - attempt
decreasing_by
  · omega
  · omega

/-- `fetchWithRetry(url, options, maxRetries, baseDelayMs)` as a function of
the attempt-outcome and jitter oracles. -/
def fetchWithRetry (oracle : Nat → FetchOutcome) (jitter : Nat → ℚ)
    (maxRetries : Nat) (baseDelayMs : ℚ) : FetchResult :=
  fetchLoop oracle jitter baseDelayMs maxRetries 0 []

/-! ## Batch classification orchestrator (`src/llm/enrichment.ts`)

The three `callOpenRouterFor*` collaborators (HTTP call plus response
parsing) are oracles returning either a thrown error or a list of outputs.
JavaScript `Map`s (`results`, the run-scoped `enrichmentCache`, and
`deterministicData`) are insertion-ordered association lists with `mapSet`
mirroring `Map.prototype.set`. Category slugs are raw strings, as at runtime;
`shortName` fields are `Option String` because the `deterministicData`
entries of the shortName-only bucket hold `null` short names. -/

/-- `MarketEnrichmentInput`. -/
structure MarketEnrichmentInput where
  conditionId : String
  question : String
  description : String
  slug : String
  eventTitle : Option String
  outcomes : List String
deriving DecidableEq, Repr

/-- `MarketEnrichmentOutput`. -/
structure MarketEnrichmentOutput where
  conditionId : String
  category : String
  shortName : Option String
deriving DecidableEq, Repr

/-- An entry of the orchestrator's `deterministicData` map. -/
structure DetData where
  shortName : Option String
  category : String
deriving DecidableEq, Repr

/-- Output row of `callOpenRouterForCategory`. -/
structure CategoryOutput where
  conditionId : String
  category : String
deriving DecidableEq, Repr

/-- Output row of `callOpenRouterForShortNameOnly`. -/
structure ShortNameOnlyOutput where
  conditionId : String
  shortName : String
deriving DecidableEq, Repr

/-- `Map.prototype.set`: replace in place on an existing key, append
otherwise. -/
def mapSet : List (String × β) → String → β → List (String × β)
  | [], k, v => [(k, v)]
  | (k0, v0) :: rest, k, v =>
    if k0 == k then (k0, v) :: rest else (k0, v0) :: mapSet rest k v

abbrev OutputMap := List (String × MarketEnrichmentOutput)

/-- `LLM_BATCH_SIZE` (reduced to avoid token limits with free models). -/
def LLM_BATCH_SIZE : Nat := 10

/-- Structural worker for `toBatches`: the counter starts at the list length
and strictly bounds the remaining iterations (each one drops
`LLM_BATCH_SIZE ≥ 1` elements), so the `0, _ :: _` branch is unreachable. -/
def toBatchesGo : Nat → List Market → List (List Market)
  | _, [] => []
  | 0, _ :: _ => []
  | n + 1, x :: rest =>
    (x :: rest).take LLM_BATCH_SIZE :: toBatchesGo n ((x :: rest).drop LLM_BATCH_SIZE)

/-- The batching loop `for (i = 0; i < xs.length; i += LLM_BATCH_SIZE)
batches.push(xs.slice(i, i + LLM_BATCH_SIZE))`. -/
def toBatches (xs : List Market) : List (List Market) :=
  toBatchesGo xs.length xs

/-- `marketToEnrichmentInput`. -/
def marketToEnrichmentInput (jp : JsonParse) (m : Market) : MarketEnrichmentInput :=
  { conditionId := m.conditionId
    question := m.question
    description := m.description.getD ""
    slug := m.slug
    eventTitle := m.eventTitle
    outcomes := parseOutcomes jp m.outcomes }

/-- `getFallbackEnrichment`: best-effort deterministic category (with the
`'unknown'` sentinel replaced by the fixed `'geopolitics'` default) and
best-effort deterministic short name (with the raw question as default). -/
def getFallbackEnrichment (jp : JsonParse) (m : Market) : MarketEnrichmentOutput :=
  let category := inferSapienceCategorySlug m
  { conditionId := m.conditionId
    category := if category == "unknown" then "geopolitics" else category
    shortName := some ((inferShortName jp m).getD m.question) }

/-- The oracle for `callOpenRouterForCategory`. -/
abbrev CatOracle := List MarketEnrichmentInput → Except String (List CategoryOutput)

/-- The oracle for `callOpenRouterForShortNameOnly`. -/
abbrev NameOracle := List MarketEnrichmentInput → Except String (List ShortNameOnlyOutput)

/-- The oracle for `callOpenRouterForBoth`. -/
abbrev BothOracle := List MarketEnrichmentInput → Except String (List MarketEnrichmentOutput)

/-- The mutable state of one `enrichMarkets` run: the `results` map, the
run-scoped `enrichmentCache`, the `errors` list and the `usedFallback`
flag. -/
structure EnrichState where
  results : OutputMap
  cache : OutputMap
  errors : List String
  usedFallback : Bool
deriving Repr

/-- State of the partitioning loop: the results seeded by cache hits, the
four disjoint buckets in insertion order, and `deterministicData`. -/
structure SplitState where
  results : OutputMap
  fullyDeterministic : List Market
  needsCategoryOnly : List Market
  needsShortNameOnly : List Market
  needsBoth : List Market
  deterministicData : List (String × DetData)
deriving Repr

/-- One iteration of the partitioning loop. On a cache hit the emitted result
is `{ ...cached, ...(shortName && { shortName }), ...(category !== 'unknown'
&& { category }) }`: the cached entry refreshed with any truthy deterministic
short name and any known deterministic category. Otherwise the market is
bucketed by which of the two deterministic fields are available. -/
def splitStep (jp : JsonParse) (cache : OutputMap) (st : SplitState)
    (m : Market) : SplitState :=
  match cache.lookup m.conditionId with
  | some cached =>
    let shortName := inferShortName jp m
    let category := inferSapienceCategorySlug m
    let merged : MarketEnrichmentOutput :=
      { cached with
        shortName := if truthyOptStr shortName then shortName else cached.shortName
        category := if category != "unknown" then category else cached.category }
    { st with results := mapSet st.results m.conditionId merged }
  | none =>
    let shortName := inferShortName jp m
    let category := inferSapienceCategorySlug m
    if truthyOptStr shortName && category != "unknown" then
      { st with
        deterministicData := mapSet st.deterministicData m.conditionId ⟨shortName, category⟩
        fullyDeterministic := st.fullyDeterministic ++ [m] }
    else if truthyOptStr shortName then
      { st with
        deterministicData := mapSet st.deterministicData m.conditionId ⟨shortName, category⟩
        needsCategoryOnly := st.needsCategoryOnly ++ [m] }
    else if category != "unknown" then
      { st with
        deterministicData := mapSet st.deterministicData m.conditionId ⟨none, category⟩
        needsShortNameOnly := st.needsShortNameOnly ++ [m] }
    else
      { st with needsBoth := st.needsBoth ++ [m] }

/-- The whole partitioning loop over the input markets. -/
def splitMarkets (jp : JsonParse) (cache : OutputMap) (markets : List Market) :
    SplitState :=
  markets.foldl (splitStep jp cache) ⟨[], [], [], [], [], []⟩

/-- The fully-deterministic loop: resolve each bucket member from its
`deterministicData` entry and write it to both `results` and the cache. The
source's non-null assertion `deterministicData.get(id)!` is modelled with a
default entry; every member of the bucket has an entry. -/
def processFullyDeterministic (detData : List (String × DetData))
    (st : EnrichState) (ms : List Market) : EnrichState :=
  ms.foldl
    (fun st m =>
      let data := (detData.lookup m.conditionId).getD ⟨none, "unknown"⟩
      let enriched : MarketEnrichmentOutput :=
        ⟨m.conditionId, data.category, data.shortName⟩
      { st with
        results := mapSet st.results m.conditionId enriched
        cache := mapSet st.cache m.conditionId enriched })
    st

/-- The `for (const output of categoryOutputs)` body: deterministic short
name, LLM category. -/
def applyCategoryOutput (detData : List (String × DetData)) (st : EnrichState)
    (o : CategoryOutput) : EnrichState :=
  let data := (detData.lookup o.conditionId).getD ⟨none, "unknown"⟩
  let enriched : MarketEnrichmentOutput := ⟨o.conditionId, o.category, data.shortName⟩
  { st with
    results := mapSet st.results o.conditionId enriched
    cache := mapSet st.cache o.conditionId enriched }

/-- The `for (const output of shortNameOutputs)` body: deterministic
category, LLM short name. -/
def applyShortNameOutput (detData : List (String × DetData)) (st : EnrichState)
    (o : ShortNameOnlyOutput) : EnrichState :=
  let data := (detData.lookup o.conditionId).getD ⟨none, "unknown"⟩
  let enriched : MarketEnrichmentOutput := ⟨o.conditionId, data.category, some o.shortName⟩
  { st with
    results := mapSet st.results o.conditionId enriched
    cache := mapSet st.cache o.conditionId enriched }

/-- The `for (const output of outputs)` body of the needs-both section: the
LLM output is stored as is. -/
def applyBothOutput (st : EnrichState) (o : MarketEnrichmentOutput) : EnrichState :=
  { st with
    results := mapSet st.results o.conditionId o
    cache := mapSet st.cache o.conditionId o }

/-- The post-response loop of a successful batch: any batch member still
missing from `results` gets the deterministic fallback and sets
`usedFallback`. -/
def fallbackMissing (jp : JsonParse) (st : EnrichState) (batch : List Market) :
    EnrichState :=
  batch.foldl
    (fun st m =>
      if (st.results.lookup m.conditionId).isSome then st
      else
        { st with
          results := mapSet st.results m.conditionId (getFallbackEnrichment jp m)
          usedFallback := true })
    st

/-- One record of the `catch` block's loop: a not-yet-resolved batch member
gets the deterministic fallback. -/
def fallbackStep (jp : JsonParse) (st : EnrichState) (m : Market) : EnrichState :=
  if (st.results.lookup m.conditionId).isSome then st
  else
    { st with
      results := mapSet st.results m.conditionId (getFallbackEnrichment jp m) }

/-- The `catch` block of a batch: push the error message, give every
not-yet-resolved batch member the deterministic fallback, and set
`usedFallback` unconditionally. -/
def fallbackCatch (jp : JsonParse) (st : EnrichState) (batch : List Market)
    (errMsg : String) : EnrichState :=
  let st := { st with errors := st.errors ++ [errMsg] }
  let st := batch.foldl (fallbackStep jp) st
  { st with usedFallback := true }

/-- One batch of one LLM section, parametrised by the section's oracle, its
per-output merge (`applyOut`) and its error-label (`"Category batch"`,
`"ShortName-only batch"`, `"Both batch"`); the source repeats this block
verbatim for the three buckets. -/
def processLLMBatch (jp : JsonParse)
    (oracle : List MarketEnrichmentInput → Except String (List γ))
    (applyOut : EnrichState → γ → EnrichState) (label : String)
    (st : EnrichState) (batchIndex : Nat) (batch : List Market) : EnrichState :=
  match oracle (batch.map (marketToEnrichmentInput jp)) with
  | .ok outputs =>
    let st := outputs.foldl applyOut st
    fallbackMissing jp st batch
  | .error msg =>
    fallbackCatch jp st batch
      (label ++ " " ++ toString (batchIndex + 1) ++ " failed: " ++ msg)

/-- All batches of one LLM section, in order, with their 0-based indices. -/
def processLLMBatches (jp : JsonParse)
    (oracle : List MarketEnrichmentInput → Except String (List γ))
    (applyOut : EnrichState → γ → EnrichState) (label : String)
    (st : EnrichState) (batches : List (List Market)) : EnrichState :=
  (batches.foldl
    (fun (acc : EnrichState × Nat) batch =>
      (processLLMBatch jp oracle applyOut label acc.1 acc.2 batch, acc.2 + 1))
    (st, 0)).1

/-- The `if (needsCategoryOnly.length > 0)` section: batch the bucket and
dispatch each batch to the category oracle. -/
def categorySection (jp : JsonParse) (catOracle : CatOracle) (split : SplitState)
    (st : EnrichState) : EnrichState :=
  if 0 < split.needsCategoryOnly.length then
    processLLMBatches jp catOracle (applyCategoryOutput split.deterministicData)
      "Category batch" st (toBatches split.needsCategoryOnly)
  else st

/-- The `if (needsShortNameOnly.length > 0)` section. -/
def shortNameSection (jp : JsonParse) (nameOracle : NameOracle)
    (split : SplitState) (st : EnrichState) : EnrichState :=
  if 0 < split.needsShortNameOnly.length then
    processLLMBatches jp nameOracle (applyShortNameOutput split.deterministicData)
      "ShortName-only batch" st (toBatches split.needsShortNameOnly)
  else st

/-- The `if (needsBoth.length > 0)` section. -/
def bothSection (jp : JsonParse) (bothOracle : BothOracle) (split : SplitState)
    (st : EnrichState) : EnrichState :=
  if 0 < split.needsBoth.length then
    processLLMBatches jp bothOracle applyBothOutput
      "Both batch" st (toBatches split.needsBoth)
  else st

/-- `enrichMarkets(markets, apiKey, model)`: partition (consulting the cache),
resolve the fully-deterministic bucket, then run the category-only,
shortName-only and both sections in that order, each guarded by a
non-emptiness check as in the source. -/
def enrichMarkets (jp : JsonParse) (catOracle : CatOracle)
    (nameOracle : NameOracle) (bothOracle : BothOracle) (cache : OutputMap)
    (markets : List Market) : EnrichState :=
  let split := splitMarkets jp cache markets
  bothSection jp bothOracle split
    (shortNameSection jp nameOracle split
      (categorySection jp catOracle split
        (processFullyDeterministic split.deterministicData
          ⟨split.results, cache, [], false⟩ split.fullyDeterministic)))

/-! ## Auxiliary definitions for the theorems below -/

/-- The abbreviation-generation rule exactly as the specification words it,
for comparison with `getTeamAbbreviation`: a trimmed name of 3 or fewer
characters verbatim upper-cased; a vowel-initial name's first 3 letters
upper-cased; else, given at least 3 consonants, the first 3 consonants
upper-cased; else the first 3 characters upper-cased. -/
def specTeamAbbreviation (name : String) : String :=
  let trimmed := jsTrim name
  let letters := trimmed.data.filter Char.isAlpha
  let consonants := trimmed.data.filter
    (fun c => "bcdfghjklmnpqrstvwxyz".data.contains c.toLower)
  if trimmed.length ≤ 3 then jsToUpper trimmed
  else if startsWithVowel trimmed then jsToUpper (String.mk (letters.take 3))
  else if 3 ≤ consonants.length then jsToUpper (String.mk (consonants.take 3))
  else jsToUpper (String.mk (trimmed.data.take 3))

/-- Is a fetch attempt outcome one the retry loop retries on (a 5xx response
or a thrown transport error)? -/
def retryableOutcome : FetchOutcome → Bool
  | .resp status => 500 ≤ status && status < 600
  | .err _ => true

/-- A `JSON.parse` model that always throws (never consulted in the concrete
scenarios below, whose `outcomes` fields are arrays). -/
def jpThrow : JsonParse := fun _ => .error "unexpected token"

/-- Category oracle that fails every batch (also the stand-in for "the LLM
must not be called": a dispatched batch would record an error). -/
def catFailOracle : CatOracle := fun _ => .error "network error"

def nameFailOracle : NameOracle := fun _ => .error "network error"

def bothFailOracle : BothOracle := fun _ => .error "network error"

/-- A both-bucket oracle answering with a fixed LLM-derived enrichment for
the identifier `"id1"`. -/
def bothOkOracle : BothOracle := fun _ =>
  .ok [{ conditionId := "id1", category := "culture", shortName := some "LLM name" }]

/-- The scenario record: question `"Lakers vs. Celtics"`, outcome pair
`["Lakers", "Celtics"]`, no spread/handicap markers, no sports-market-type
field. -/
def lakersMarket : Market :=
  { conditionId := "id1", question := "Lakers vs. Celtics", description := none,
    slug := "", eventTitle := none, seriesSlug := none, seriesTitle := none,
    eventSeriesSlug := none, outcomes := .arr ["Lakers", "Celtics"],
    sportsMarketType := none }

/-- A record no deterministic rule or keyword matches: routed to the
needs-both bucket. -/
def quxMarket : Market :=
  { conditionId := "id1", question := "Quxbaz zorp happen soon", description := none,
    slug := "", eventTitle := none, seriesSlug := none, seriesTitle := none,
    eventSeriesSlug := none, outcomes := .arr ["Yes", "No"],
    sportsMarketType := none }

/-- A market whose `outcomes` field is a structurally malformed string. -/
def badOutcomesMarket : Market :=
  { conditionId := "id9", question := "Broken outcomes", description := none,
    slug := "", eventTitle := none, seriesSlug := none, seriesTitle := none,
    eventSeriesSlug := none, outcomes := .str "boom", sportsMarketType := none }

/-- A market whose search text contains no recognized keyword. -/
def noKeywordMarket : Market :=
  { conditionId := "id2", question := "zzz", description := none,
    slug := "qqq", eventTitle := none, seriesSlug := none, seriesTitle := none,
    eventSeriesSlug := none, outcomes := .arr ["Yes", "No"],
    sportsMarketType := none }

/-- A minimal concrete filter over naturals, used to exercise the pipeline
runner on a closed input. -/
def evenFilter : Filter Nat :=
  { name := "even", description := "Keep even numbers",
    apply := partitionBy (fun n => n % 2 == 0) }

/-! ## Helper lemmas: association-list maps and folds -/

theorem lookup_mapSet_self (m : List (String × β)) (k : String) (v : β) :
    (mapSet m k v).lookup k = some v := by
  induction m with
  | nil => simp [mapSet, List.lookup]
  | cons p rest ih =>
    obtain ⟨k0, v0⟩ := p
    by_cases h : k0 = k
    · simp [mapSet, h, List.lookup]
    · have hne : (k0 == k) = false := by simp [h]
      have hne' : (k == k0) = false := by
        simp only [beq_eq_false_iff_ne, ne_eq]
        exact fun hh => h hh.symm
      simp [mapSet, hne, List.lookup, hne', ih]

theorem lookup_mapSet_ne (m : List (String × β)) (k k' : String) (v : β)
    (h : k ≠ k') : (mapSet m k' v).lookup k = m.lookup k := by
  induction m with
  | nil =>
    have : (k == k') = false := by simp [h]
    simp [mapSet, List.lookup, this]
  | cons p rest ih =>
    obtain ⟨k0, v0⟩ := p
    by_cases h0 : k0 = k'
    · subst h0
      have : (k == k0) = false := by simp [h]
      simp [mapSet, List.lookup, this]
    · have : (k0 == k') = false := by simp [h0]
      simp [mapSet, this, List.lookup, ih]

theorem isSome_lookup_mapSet (m : List (String × β)) (k k' : String) (v : β)
    (h : (m.lookup k).isSome) : ((mapSet m k' v).lookup k).isSome := by
  by_cases hk : k = k'
  · subst hk; simp [lookup_mapSet_self]
  · rwa [lookup_mapSet_ne m k k' v hk]

theorem isSome_lookup_mapSet_self (m : List (String × β)) (k : String) (v : β) :
    ((mapSet m k v).lookup k).isSome := by
  simp [lookup_mapSet_self]

/-- The keys of `mapSet m k v`: unchanged when `k` was present, extended by
`k` at the end otherwise. -/
theorem keys_mapSet (m : List (String × β)) (k : String) (v : β) :
    (mapSet m k v).map Prod.fst = m.map Prod.fst ∨
      (mapSet m k v).map Prod.fst = m.map Prod.fst ++ [k] := by
  induction m with
  | nil => right; simp [mapSet]
  | cons p rest ih =>
    obtain ⟨k0, v0⟩ := p
    by_cases h : k0 = k
    · left; simp [mapSet, h]
    · have : (k0 == k) = false := by simp [h]
      rcases ih with ih | ih
      · left; simp [mapSet, this, ih]
      · right; simp [mapSet, this, ih]

theorem nodup_keys_mapSet (m : List (String × β)) (k : String) (v : β)
    (h : (m.map Prod.fst).Nodup) : ((mapSet m k v).map Prod.fst).Nodup := by
  induction m with
  | nil => simp [mapSet]
  | cons p rest ih =>
    obtain ⟨k0, v0⟩ := p
    simp only [List.map_cons, List.nodup_cons] at h
    by_cases hk : k0 = k
    · simpa [mapSet, hk, List.nodup_cons] using h
    · have hne : (k0 == k) = false := by simp [hk]
      have tail := ih h.2
      have knotin : k0 ∉ (mapSet rest k v).map Prod.fst := by
        rcases keys_mapSet rest k v with heq | heq
        · rw [heq]; exact h.1
        · rw [heq]
          simp only [List.mem_append, List.mem_singleton]
          rintro (hin | rfl)
          · exact h.1 hin
          · exact hk rfl
      simp only [mapSet, hne, Bool.false_eq_true, if_false, List.map_cons,
        List.nodup_cons]
      exact ⟨knotin, tail⟩

/-- Folding preserves any invariant preserved by each step. -/
theorem foldl_preserves {σ : Type u} {α : Type v} (f : σ → α → σ) (P : σ → Prop)
    (h : ∀ s a, P s → P (f s a)) :
    ∀ (l : List α) (s : σ), P s → P (l.foldl f s) := by
  intro l
  induction l with
  | nil => intro s hs; simpa using hs
  | cons x rest ih => intro s hs; exact ih (f s x) (h s x hs)

/-! ## Claim theorems -/

/-- C7: for every entity name whose trimmed form is not in the static
name→abbreviation table, `getTeamAbbreviation` applies exactly the rule the
specification states: a trimmed name of 3 or fewer characters is returned
verbatim upper-cased; a name starting with a vowel yields its first 3
letters upper-cased; otherwise, with at least 3 consonants, its first 3
consonants upper-cased; and as final fallback its first 3 characters
upper-cased (`specTeamAbbreviation`). -/
theorem C7_getTeamAbbreviation_fallback (name : String)
    (h : TEAM_ABBREVIATIONS.lookup (jsTrim name) = none) :
    getTeamAbbreviation name = specTeamAbbreviation name := by
  unfold getTeamAbbreviation specTeamAbbreviation
  simp only [h]

theorem C7_getTeamAbbreviation_fallback_witness :
    TEAM_ABBREVIATIONS.lookup (jsTrim "Zephyrs") = none ∧
      getTeamAbbreviation "Zephyrs" = specTeamAbbreviation "Zephyrs" :=
  ⟨by decide, C7_getTeamAbbreviation_fallback "Zephyrs" (by decide)⟩

/-- C5: `UnionFilter` keeps an item iff at least one sub-filter, applied to
the singleton list containing that item, would keep it; `IntersectionFilter`
keeps an item iff every sub-filter would; in both cases every other input
item goes to `removed`. -/
theorem C5_union_intersection_pointwise {α : Type} (filters : List (Filter α))
    (items : List α) (x : α) :
    (x ∈ ((UnionFilter filters).apply items).kept ↔
      x ∈ items ∧ ∃ f ∈ filters, 0 < (f.apply [x]).kept.length) ∧
    (x ∈ ((UnionFilter filters).apply items).removed ↔
      x ∈ items ∧ ¬∃ f ∈ filters, 0 < (f.apply [x]).kept.length) ∧
    (x ∈ ((IntersectionFilter filters).apply items).kept ↔
      x ∈ items ∧ ∀ f ∈ filters, 0 < (f.apply [x]).kept.length) ∧
    (x ∈ ((IntersectionFilter filters).apply items).removed ↔
      x ∈ items ∧ ¬∀ f ∈ filters, 0 < (f.apply [x]).kept.length) := by
  simp [UnionFilter, IntersectionFilter, partitionBy, List.mem_filter,
    List.any_eq_true, List.all_eq_true]

/-- C10: `parseOutcomes` is total: an array input is returned unchanged; a
string input is returned as the parsed array exactly when `JSON.parse`
returns an array, and otherwise (non-array result or thrown parse error)
yields `[]`, as does any other input — so a market with a malformed
`outcomes` string is counted as non-binary and lands in
`BinaryMarketsFilter`'s removed list rather than aborting the run. -/
theorem C10_parseOutcomes_never_throws (jp : JsonParse) (xs : List String)
    (s e : String) (markets : List Market) (m : Market) :
    parseOutcomes jp (.arr xs) = xs ∧
    (jp s = .ok (.arr xs) → parseOutcomes jp (.str s) = xs) ∧
    (jp s = .ok .notArr → parseOutcomes jp (.str s) = []) ∧
    (jp s = .error e → parseOutcomes jp (.str s) = []) ∧
    parseOutcomes jp .other = [] ∧
    (m ∈ markets → (parseOutcomes jp m.outcomes).length ≠ 2 →
      m ∈ ((BinaryMarketsFilter jp).apply markets).removed) := by
  refine ⟨rfl, ?_, ?_, ?_, rfl, ?_⟩
  · intro h; simp [parseOutcomes, h]
  · intro h; simp [parseOutcomes, h]
  · intro h; simp [parseOutcomes, h]
  · intro hm hlen
    simp only [BinaryMarketsFilter, partitionBy, List.mem_filter]
    exact ⟨hm, by simpa using hlen⟩

theorem C10_parseOutcomes_never_throws_witness :
    jpThrow "boom" = .error "unexpected token" ∧
    parseOutcomes jpThrow (.str "boom") = [] ∧
    badOutcomesMarket ∈
      ((BinaryMarketsFilter jpThrow).apply [badOutcomesMarket]).removed :=
  ⟨rfl,
   (C10_parseOutcomes_never_throws jpThrow [] "boom" "unexpected token" []
      badOutcomesMarket).2.2.2.1 rfl,
   (C10_parseOutcomes_never_throws jpThrow [] "boom" "unexpected token"
      [badOutcomesMarket] badOutcomesMarket).2.2.2.2.2 (by decide) (by decide)⟩

/-- C2: a market record whose lower-cased search text (question, slug and
event-series fields) matches none of the seven categories' keyword sets and
whose `sportsMarketType` field is not set is classified `"unknown"` by
`inferSapienceCategorySlug` — never a member of the closed enum — and the
`'geopolitics'` default is substituted only downstream, by the caller
(`getFallbackEnrichment`). -/
theorem C2_inferSapienceCategorySlug_unknown (jp : JsonParse) (m : Market)
    (hsport : truthyOptStr m.sportsMarketType = false)
    (h1 : anyKeywordMatches sportsKeywords (categorySearchText m) = false)
    (h2 : anyKeywordMatches cryptoKeywords (categorySearchText m) = false)
    (h3 : anyKeywordMatches weatherKeywords (categorySearchText m) = false)
    (h4 : anyKeywordMatches techScienceKeywords (categorySearchText m) = false)
    (h5 : anyKeywordMatches economyFinanceKeywords (categorySearchText m) = false)
    (h6 : anyKeywordMatches geopoliticsKeywords (categorySearchText m) = false)
    (h7 : anyKeywordMatches cultureKeywords (categorySearchText m) = false) :
    inferSapienceCategorySlug m = "unknown" ∧
      (getFallbackEnrichment jp m).category = "geopolitics" := by
  have hcat : inferSapienceCategorySlug m = "unknown" := by
    unfold inferSapienceCategorySlug
    simp [hsport, h1, h2, h3, h4, h5, h6, h7]
  exact ⟨hcat, by simp [getFallbackEnrichment, hcat]⟩

theorem C2_inferSapienceCategorySlug_unknown_witness :
    truthyOptStr noKeywordMarket.sportsMarketType = false ∧
    anyKeywordMatches sportsKeywords (categorySearchText noKeywordMarket) = false ∧
    inferSapienceCategorySlug noKeywordMarket = "unknown" ∧
    (getFallbackEnrichment jpThrow noKeywordMarket).category = "geopolitics" :=
  ⟨rfl, by decide,
   (C2_inferSapienceCategorySlug_unknown jpThrow noKeywordMarket rfl (by decide)
      (by decide) (by decide) (by decide) (by decide) (by decide) (by decide)).1,
   (C2_inferSapienceCategorySlug_unknown jpThrow noKeywordMarket rfl (by decide)
      (by decide) (by decide) (by decide) (by decide) (by decide) (by decide)).2⟩

/-! ### Lemmas about the retry loop -/

theorem fetchLoop_attempts_ge (oracle : Nat → FetchOutcome) (jitter : Nat → ℚ)
    (base : ℚ) (maxR : Nat) (attempt : Nat) (delays : List ℚ) :
    attempt + 1 ≤ (fetchLoop oracle jitter base maxR attempt delays).attemptsUsed := by
  induction attempt, delays using fetchLoop.induct oracle jitter base maxR with
  | case1 attempt delays status horacle hcond ih =>
    rw [fetchLoop, horacle]
    dsimp only
    rw [dif_pos hcond]
    omega
  | case2 attempt delays status horacle hcond =>
    rw [fetchLoop, horacle]
    dsimp only
    rw [dif_neg hcond]
  | case3 attempt delays e horacle hcond ih =>
    rw [fetchLoop, horacle]
    dsimp only
    rw [dif_pos hcond]
    omega
  | case4 attempt delays e horacle hcond =>
    rw [fetchLoop, horacle]
    dsimp only
    rw [dif_neg hcond]

theorem fetchLoop_attempts_le (oracle : Nat → FetchOutcome) (jitter : Nat → ℚ)
    (base : ℚ) (maxR : Nat) (attempt : Nat) (delays : List ℚ)
    (hle : attempt ≤ maxR) :
    (fetchLoop oracle jitter base maxR attempt delays).attemptsUsed ≤ maxR + 1 := by
  induction attempt, delays using fetchLoop.induct oracle jitter base maxR with
  | case1 attempt delays status horacle hcond ih =>
    rw [fetchLoop, horacle]
    dsimp only
    rw [dif_pos hcond]
    exact ih hcond.2.2
  | case2 attempt delays status horacle hcond =>
    rw [fetchLoop, horacle]
    dsimp only
    rw [dif_neg hcond]
    dsimp only
    omega
  | case3 attempt delays e horacle hcond ih =>
    rw [fetchLoop, horacle]
    dsimp only
    rw [dif_pos hcond]
    exact ih hcond
  | case4 attempt delays e horacle hcond =>
    rw [fetchLoop, horacle]
    dsimp only
    rw [dif_neg hcond]
    dsimp only
    omega

theorem fetchLoop_retryable_prefix (oracle : Nat → FetchOutcome)
    (jitter : Nat → ℚ) (base : ℚ) (maxR : Nat) (attempt : Nat) (delays : List ℚ) :
    ∀ i, attempt ≤ i →
      i + 1 < (fetchLoop oracle jitter base maxR attempt delays).attemptsUsed →
      retryableOutcome (oracle i) = true := by
  induction attempt, delays using fetchLoop.induct oracle jitter base maxR with
  | case1 attempt delays status horacle hcond ih =>
    intro i hai hlt
    rw [fetchLoop, horacle] at hlt
    dsimp only at hlt
    rw [dif_pos hcond] at hlt
    rcases Nat.eq_or_lt_of_le hai with rfl | hlt2
    · simp only [retryableOutcome, horacle, Bool.and_eq_true, decide_eq_true_eq]
      omega
    · exact ih i hlt2 hlt
  | case2 attempt delays status horacle hcond =>
    intro i hai hlt
    rw [fetchLoop, horacle] at hlt
    dsimp only at hlt
    rw [dif_neg hcond] at hlt
    dsimp only at hlt
    omega
  | case3 attempt delays e horacle hcond ih =>
    intro i hai hlt
    rw [fetchLoop, horacle] at hlt
    dsimp only at hlt
    rw [dif_pos hcond] at hlt
    rcases Nat.eq_or_lt_of_le hai with rfl | hlt2
    · simp [retryableOutcome, horacle]
    · exact ih i hlt2 hlt
  | case4 attempt delays e horacle hcond =>
    intro i hai hlt
    rw [fetchLoop, horacle] at hlt
    dsimp only at hlt
    rw [dif_neg hcond] at hlt
    dsimp only at hlt
    omega

theorem fetchLoop_delays_spec (oracle : Nat → FetchOutcome) (jitter : Nat → ℚ)
    (base : ℚ) (maxR : Nat) (attempt : Nat) (delays : List ℚ) :
    (fetchLoop oracle jitter base maxR attempt delays).delays =
      delays ++
        (List.range' attempt
            ((fetchLoop oracle jitter base maxR attempt delays).attemptsUsed
              - 1 - attempt)).map
          (fun i => base * 2 ^ i + jitter i) := by
  induction attempt, delays using fetchLoop.induct oracle jitter base maxR with
  | case1 attempt delays status horacle hcond ih =>
    have hge := fetchLoop_attempts_ge oracle jitter base maxR (attempt + 1)
      (delays ++ [base * 2 ^ attempt + jitter attempt])
    rw [fetchLoop, horacle]
    dsimp only
    rw [dif_pos hcond, ih]
    have hn : (fetchLoop oracle jitter base maxR (attempt + 1)
        (delays ++ [base * 2 ^ attempt + jitter attempt])).attemptsUsed - 1 - attempt =
        ((fetchLoop oracle jitter base maxR (attempt + 1)
          (delays ++ [base * 2 ^ attempt + jitter attempt])).attemptsUsed - 1
            - (attempt + 1)) + 1 := by omega
    rw [hn, List.range'_succ]
    simp
  | case2 attempt delays status horacle hcond =>
    rw [fetchLoop, horacle]
    dsimp only
    rw [dif_neg hcond]
    simp
  | case3 attempt delays e horacle hcond ih =>
    have hge := fetchLoop_attempts_ge oracle jitter base maxR (attempt + 1)
      (delays ++ [base * 2 ^ attempt + jitter attempt])
    rw [fetchLoop, horacle]
    dsimp only
    rw [dif_pos hcond, ih]
    have hn : (fetchLoop oracle jitter base maxR (attempt + 1)
        (delays ++ [base * 2 ^ attempt + jitter attempt])).attemptsUsed - 1 - attempt =
        ((fetchLoop oracle jitter base maxR (attempt + 1)
          (delays ++ [base * 2 ^ attempt + jitter attempt])).attemptsUsed - 1
            - (attempt + 1)) + 1 := by omega
    rw [hn, List.range'_succ]
    simp
  | case4 attempt delays e horacle hcond =>
    rw [fetchLoop, horacle]
    dsimp only
    rw [dif_neg hcond]
    simp

/-- Reaching attempt `k`: while every earlier outcome is retryable and `k` is
within the retry budget, the loop runs on, accumulating one backoff delay per
retry. -/
theorem fetchLoop_reach (oracle : Nat → FetchOutcome) (jitter : Nat → ℚ)
    (base : ℚ) (maxR : Nat) :
    ∀ (k n attempt : Nat) (delays : List ℚ), k - attempt = n → attempt ≤ k →
      k ≤ maxR →
      (∀ j, attempt ≤ j → j < k → retryableOutcome (oracle j) = true) →
      fetchLoop oracle jitter base maxR attempt delays =
        fetchLoop oracle jitter base maxR k
          (delays ++ (List.range' attempt (k - attempt)).map
            (fun i => base * 2 ^ i + jitter i)) := by
  intro k n
  induction n with
  | zero =>
    intro attempt delays hd hak hkm hr
    have : attempt = k := by omega
    subst this
    simp
  | succ n ih =>
    intro attempt delays hd hak hkm hr
    have hlt : attempt < k := by omega
    have hretry := hr attempt (Nat.le_refl _) hlt
    have hrange : k - attempt = n + 1 := hd
    have hstep : (List.range' attempt (k - attempt)).map
        (fun i => base * 2 ^ i + jitter i) =
        (base * 2 ^ attempt + jitter attempt) ::
          (List.range' (attempt + 1) n).map (fun i => base * 2 ^ i + jitter i) := by
      rw [hrange, List.range'_succ]
      simp
    have hrec : fetchLoop oracle jitter base maxR attempt delays =
        fetchLoop oracle jitter base maxR (attempt + 1)
          (delays ++ [base * 2 ^ attempt + jitter attempt]) := by
      cases houtcome : oracle attempt with
      | resp status =>
        have hcond : 500 ≤ status ∧ status < 600 ∧ attempt < maxR := by
          have := hretry
          rw [houtcome] at this
          simp only [retryableOutcome, Bool.and_eq_true, decide_eq_true_eq] at this
          exact ⟨this.1, this.2, by omega⟩
        rw [fetchLoop, houtcome]
        dsimp only
        rw [dif_pos hcond]
      | err e =>
        have hcond : attempt < maxR := by omega
        rw [fetchLoop, houtcome]
        dsimp only
        rw [dif_pos hcond]
    rw [hrec, ih (attempt + 1)
      (delays ++ [base * 2 ^ attempt + jitter attempt]) (by omega) (by omega) hkm
      (fun j hj1 hj2 => hr j (by omega) hj2)]
    rw [hstep]
    congr 1
    have hkn : k - (attempt + 1) = n := by omega
    simp [hkn]

/-- C9: `fetchWithRetry` retries only on 5xx responses and thrown transport
errors, with exponential-plus-jitter backoff delays, for at most
`maxRetries + 1` total attempts; once every earlier attempt was retryable, a
response with status below 500 (every 4xx included) is returned immediately
with no further attempt, and if every attempt up to `maxRetries` throws, the
last error is rethrown. -/
theorem C9_fetchWithRetry_retry_policy (oracle : Nat → FetchOutcome)
    (jitter : Nat → ℚ) (maxRetries : Nat) (baseDelayMs : ℚ) :
    (fetchWithRetry oracle jitter maxRetries baseDelayMs).attemptsUsed ≤ maxRetries + 1 ∧
    (∀ i, i + 1 < (fetchWithRetry oracle jitter maxRetries baseDelayMs).attemptsUsed →
      retryableOutcome (oracle i) = true) ∧
    ((fetchWithRetry oracle jitter maxRetries baseDelayMs).delays =
      (List.range ((fetchWithRetry oracle jitter maxRetries baseDelayMs).attemptsUsed - 1)).map
        (fun i => baseDelayMs * 2 ^ i + jitter i)) ∧
    (∀ k status, k ≤ maxRetries →
      (∀ j, j < k → retryableOutcome (oracle j) = true) →
      oracle k = .resp status → status < 500 →
      fetchWithRetry oracle jitter maxRetries baseDelayMs =
        ⟨.ok status, k + 1,
          (List.range k).map (fun i => baseDelayMs * 2 ^ i + jitter i)⟩) ∧
    ((∀ i, i ≤ maxRetries → ∃ e, oracle i = .err e) →
      ∃ e, oracle maxRetries = .err e ∧
        fetchWithRetry oracle jitter maxRetries baseDelayMs =
          ⟨.error e, maxRetries + 1,
            (List.range maxRetries).map (fun i => baseDelayMs * 2 ^ i + jitter i)⟩) := by
  refine ⟨?_, ?_, ?_, ?_, ?_⟩
  · exact fetchLoop_attempts_le oracle jitter baseDelayMs maxRetries 0 [] (Nat.zero_le _)
  · intro i hi
    exact fetchLoop_retryable_prefix oracle jitter baseDelayMs maxRetries 0 [] i
      (Nat.zero_le _) hi
  · have := fetchLoop_delays_spec oracle jitter baseDelayMs maxRetries 0 []
    rw [List.range_eq_range']
    simpa [fetchWithRetry] using this
  · intro k status hk hprefix horacle hstatus
    unfold fetchWithRetry
    rw [fetchLoop_reach oracle jitter baseDelayMs maxRetries k k 0 [] rfl
      (Nat.zero_le _) hk (fun j _ hj => hprefix j hj)]
    have hcond : ¬(500 ≤ status ∧ status < 600 ∧ k < maxRetries) := by omega
    rw [fetchLoop, horacle]
    dsimp only
    rw [dif_neg hcond]
    rw [List.range_eq_range']
    simp
  · intro hall
    obtain ⟨e, he⟩ := hall maxRetries (Nat.le_refl _)
    refine ⟨e, he, ?_⟩
    unfold fetchWithRetry
    rw [fetchLoop_reach oracle jitter baseDelayMs maxRetries maxRetries maxRetries 0
      [] rfl (Nat.zero_le _) (Nat.le_refl _)
      (fun j _ hj => by
        obtain ⟨e2, he2⟩ := hall j (by omega)
        simp [retryableOutcome, he2])]
    have hcond : ¬maxRetries < maxRetries := by omega
    rw [fetchLoop, he]
    dsimp only
    rw [dif_neg hcond]
    rw [List.range_eq_range']
    simp

theorem C9_fetchWithRetry_retry_policy_witness :
    (fun _ : Nat => FetchOutcome.resp 404) 0 = FetchOutcome.resp 404 ∧
    fetchWithRetry (fun _ => FetchOutcome.resp 404) (fun _ => 0) 3 1000 =
      ⟨.ok 404, 1, []⟩ :=
  ⟨rfl, by
    have := (C9_fetchWithRetry_retry_policy (fun _ => FetchOutcome.resp 404)
      (fun _ => 0) 3 1000).2.2.2.1 0 404 (by omega) (by omega) rfl (by omega)
    simpa using this⟩


/-! ### Lemmas about the fuzzy reconciler -/

/-- Invariant of the candidate fold of `findClosestConditionId`: the running
best distance never grows, stays a lower bound of every scanned candidate's
distance, and the running best is either untouched or the first candidate
attaining the final (strictly improved) distance. -/
theorem closest_foldl_invariant (id : String) :
    ∀ (ids : List String) (best : Option String) (bd : Nat),
      (ids.foldl (closestStep id) (best, bd)).2 ≤ bd ∧
      (∀ v ∈ ids, (ids.foldl (closestStep id) (best, bd)).2 ≤ levenshteinDistance id v) ∧
      ((ids.foldl (closestStep id) (best, bd)).1 = best ∧
          (ids.foldl (closestStep id) (best, bd)).2 = bd ∨
        ∃ m ∈ ids, (ids.foldl (closestStep id) (best, bd)).1 = some m ∧
          (ids.foldl (closestStep id) (best, bd)).2 = levenshteinDistance id m ∧
          (ids.foldl (closestStep id) (best, bd)).2 < bd) := by
  intro ids
  induction ids with
  | nil => intro best bd; simp
  | cons x rest ih =>
    intro best bd
    simp only [List.foldl_cons]
    by_cases hx : levenshteinDistance id x < bd
    · have hstep : closestStep id (best, bd) x = (some x, levenshteinDistance id x) := by
        simp [closestStep, hx]
      rw [hstep]
      obtain ⟨ih1, ih2, ih3⟩ := ih (some x) (levenshteinDistance id x)
      refine ⟨by omega, ?_, ?_⟩
      · intro v hv
        rcases List.mem_cons.mp hv with rfl | hv
        · exact ih1
        · exact ih2 v hv
      · rcases ih3 with ⟨hb, hd⟩ | ⟨m, hmem, hsome, hdist, hlt⟩
        · exact Or.inr ⟨x, List.mem_cons_self x rest, hb, hd, by omega⟩
        · exact Or.inr ⟨m, List.mem_cons_of_mem x hmem, hsome, hdist, by omega⟩
    · have hstep : closestStep id (best, bd) x = (best, bd) := by
        simp [closestStep, hx]
      rw [hstep]
      obtain ⟨ih1, ih2, ih3⟩ := ih best bd
      refine ⟨ih1, ?_, ?_⟩
      · intro v hv
        rcases List.mem_cons.mp hv with rfl | hv
        · omega
        · exact ih2 v hv
      · rcases ih3 with hcase | ⟨m, hmem, hrest⟩
        · exact Or.inl hcase
        · exact Or.inr ⟨m, List.mem_cons_of_mem x hmem, hrest⟩

/-- C4: the fuzzy pass `findClosestConditionId` returns a match only when
that match is one of the still-unfound identifiers it was given, its
Levenshtein distance (as computed by the source's dynamic program
`levenshteinDistance`) to the response-line identifier is strictly below the
threshold 5, and no given identifier is strictly closer; when every given
identifier is at distance 5 or more it returns `none`, so the record falls
through to the orchestrator's fallback. -/
theorem C4_findClosestConditionId_threshold (id : String) (validIds : List String) :
    (∀ m, findClosestConditionId id validIds = some m →
      m ∈ validIds ∧ levenshteinDistance id m < 5 ∧
        ∀ v ∈ validIds, levenshteinDistance id m ≤ levenshteinDistance id v) ∧
    ((∀ v ∈ validIds, 5 ≤ levenshteinDistance id v) →
      findClosestConditionId id validIds = none) := by
  obtain ⟨h1, h2, h3⟩ := closest_foldl_invariant id validIds none 5
  constructor
  · intro m hm
    unfold findClosestConditionId at hm
    rcases h3 with ⟨hb, _⟩ | ⟨m2, hmem, hsome, hdist, hlt⟩
    · rw [hm] at hb; cases hb
    · rw [hm] at hsome
      injection hsome with he
      subst he
      refine ⟨hmem, by omega, ?_⟩
      intro v hv
      have := h2 v hv
      omega
  · intro hall
    unfold findClosestConditionId
    rcases h3 with ⟨hb, _⟩ | ⟨m2, hmem, hsome, hdist, hlt⟩
    · exact hb
    · exfalso
      have := hall m2 hmem
      omega

theorem C4_findClosestConditionId_threshold_witness :
    levenshteinDistance "kitten" "sitting" = 3 ∧
    levenshteinDistance "0x1234abcd" "0x1234abc" = 1 ∧
    (∀ v ∈ ["zzzzzzzzzz"], 5 ≤ levenshteinDistance "0x1234abcd" v) ∧
    findClosestConditionId "0x1234abcd" ["zzzzzzzzzz"] = none :=
  ⟨by decide, by decide, by decide,
   (C4_findClosestConditionId_threshold "0x1234abcd" ["zzzzzzzzzz"]).2 (by decide)⟩

/-! ### Lemmas about the pipeline runner -/

/-- Every `partitionBy` filter genuinely partitions its input. -/
theorem partitionBy_length {α : Type} (p : α → Bool) (items : List α) :
    (partitionBy p items).kept.length + (partitionBy p items).removed.length =
      items.length := by
  induction items with
  | nil => simp [partitionBy]
  | cons x rest ih =>
    by_cases hx : p x <;> simp [partitionBy, hx] at ih ⊢ <;> omega

theorem runPipeline_stats_zero {α : Type} (items : List α)
    (filters : List (Filter α)) (s : FilterStats)
    (h : (runPipeline items filters).stats[0]? = some s) :
    s.inputCount = items.length := by
  cases filters with
  | nil => simp [runPipeline] at h
  | cons f rest =>
    simp only [runPipeline, List.getElem?_cons_zero, Option.some.injEq] at h
    rw [← h]

/-- The fold step of `runPipeline` unrolled from the right: appending one
more filter applies it to the previous output, appends its removed items
after all earlier ones, and appends one statistics record. -/
theorem runPipeline_snoc {α : Type} (items : List α) (filters : List (Filter α))
    (f : Filter α) :
    runPipeline items (filters ++ [f]) =
      ⟨(f.apply (runPipeline items filters).output).kept,
        (runPipeline items filters).removed ++
          (f.apply (runPipeline items filters).output).removed,
        (runPipeline items filters).stats ++
          [⟨f.name, f.description, (runPipeline items filters).output.length,
            (f.apply (runPipeline items filters).output).kept.length,
            (f.apply (runPipeline items filters).output).removed.length⟩]⟩ := by
  induction filters generalizing items with
  | nil => simp [runPipeline]
  | cons g rest ih =>
    simp only [List.cons_append, runPipeline, List.append_eq]
    rw [ih (g.apply items).kept]
    simp [List.append_assoc]

/-- C6: for every pipeline run over filters that partition their input, every
recorded stage satisfies `keptCount + removedCount = inputCount`, consecutive
stages satisfy `stats[i].keptCount = stats[i+1].inputCount`, the first
stage's `inputCount` is the initial item count, the statistics have one
record per filter, and appending a final stage shows the output is the final
stage's kept list and `removed` accumulates each stage's removed items in
stage order. -/
theorem C6_runPipeline_invariants {α : Type} (items : List α)
    (filters : List (Filter α)) (f : Filter α)
    (hpart : ∀ g ∈ filters, ∀ xs : List α,
      (g.apply xs).kept.length + (g.apply xs).removed.length = xs.length) :
    (∀ s ∈ (runPipeline items filters).stats,
      s.keptCount + s.removedCount = s.inputCount) ∧
    (∀ i si sj, (runPipeline items filters).stats[i]? = some si →
      (runPipeline items filters).stats[i + 1]? = some sj →
      si.keptCount = sj.inputCount) ∧
    (∀ s0, (runPipeline items filters).stats[0]? = some s0 →
      s0.inputCount = items.length) ∧
    (runPipeline items filters).stats.length = filters.length ∧
    runPipeline items (filters ++ [f]) =
      ⟨(f.apply (runPipeline items filters).output).kept,
        (runPipeline items filters).removed ++
          (f.apply (runPipeline items filters).output).removed,
        (runPipeline items filters).stats ++
          [⟨f.name, f.description, (runPipeline items filters).output.length,
            (f.apply (runPipeline items filters).output).kept.length,
            (f.apply (runPipeline items filters).output).removed.length⟩]⟩ := by
  refine ⟨?_, ?_, fun s0 h => runPipeline_stats_zero items filters s0 h, ?_, ?_⟩
  · induction filters generalizing items with
    | nil => simp [runPipeline]
    | cons g rest ih =>
      intro s hs
      simp only [runPipeline, List.mem_cons] at hs
      rcases hs with rfl | hs
      · exact hpart g (List.mem_cons_self g rest) items
      · exact ih (g.apply items).kept
          (fun g2 hg2 xs => hpart g2 (List.mem_cons_of_mem g hg2) xs) s hs
  · induction filters generalizing items with
    | nil => intro i si sj h; simp [runPipeline] at h
    | cons g rest ih =>
      intro i si sj hi hj
      cases i with
      | zero =>
        simp only [runPipeline, List.getElem?_cons_zero, Option.some.injEq] at hi
        simp only [runPipeline, List.getElem?_cons_succ] at hj
        have := runPipeline_stats_zero (g.apply items).kept rest sj hj
        rw [← hi, this]
      | succ n =>
        simp only [runPipeline, List.getElem?_cons_succ] at hi hj
        exact ih (g.apply items).kept
          (fun g2 hg2 xs => hpart g2 (List.mem_cons_of_mem g hg2) xs) n si sj hi hj
  · induction filters generalizing items with
    | nil => simp [runPipeline]
    | cons g rest ih =>
      simp [runPipeline,
        ih (g.apply items).kept
          (fun g2 hg2 xs => hpart g2 (List.mem_cons_of_mem g hg2) xs)]
  · exact runPipeline_snoc items filters f

theorem C6_runPipeline_invariants_witness :
    (∀ s ∈ (runPipeline [1, 2, 3] [evenFilter]).stats,
      s.keptCount + s.removedCount = s.inputCount) ∧
    (runPipeline [1, 2, 3] [evenFilter]).output = [2] ∧
    (runPipeline [1, 2, 3] [evenFilter]).removed = [1, 3] :=
  ⟨(C6_runPipeline_invariants [1, 2, 3] [evenFilter] evenFilter
      (fun g hg xs => by
        rcases List.mem_singleton.mp hg with rfl
        exact partitionBy_length _ xs)).1,
   by decide, by decide⟩

/-- C8: the record with question `"Lakers vs. Celtics"` and outcome pair
`["Lakers", "Celtics"]` gets deterministic short name `"LAL win vs BOS"`
(rule 4 with the team-abbreviation table) and deterministic category
`"sports"`, lands in the fully-deterministic bucket, and is resolved by
`enrichMarkets` with zero LLM calls: with every oracle failing, the run still
produces exactly that enrichment with no recorded error and no fallback. -/
theorem C8_lakers_fully_deterministic :
    inferShortName jpThrow lakersMarket = some "LAL win vs BOS" ∧
    inferSapienceCategorySlug lakersMarket = "sports" ∧
    (splitMarkets jpThrow [] [lakersMarket]).fullyDeterministic = [lakersMarket] ∧
    (enrichMarkets jpThrow catFailOracle nameFailOracle bothFailOracle []
        [lakersMarket]).results =
      [("id1", { conditionId := "id1", category := "sports",
                 shortName := some "LAL win vs BOS" })] ∧
    (enrichMarkets jpThrow catFailOracle nameFailOracle bothFailOracle []
        [lakersMarket]).errors = [] ∧
    (enrichMarkets jpThrow catFailOracle nameFailOracle bothFailOracle []
        [lakersMarket]).usedFallback = false :=
  ⟨rfl, rfl, rfl, rfl, rfl, rfl⟩

/-! ### Lemmas about the orchestrator's split pass and batch sections -/

theorem marketToEnrichmentInput_conditionId (jp : JsonParse) (m : Market) :
    (marketToEnrichmentInput jp m).conditionId = m.conditionId := rfl

/-- Every market placed in one of the four buckets missed the cache. -/
theorem split_bucket_cache_miss (jp : JsonParse) (cache : OutputMap)
    (markets : List Market) :
    ∀ x : Market,
      (x ∈ (splitMarkets jp cache markets).fullyDeterministic ∨
        x ∈ (splitMarkets jp cache markets).needsCategoryOnly ∨
        x ∈ (splitMarkets jp cache markets).needsShortNameOnly ∨
        x ∈ (splitMarkets jp cache markets).needsBoth) →
      cache.lookup x.conditionId = none := by
  have key : ∀ (st : SplitState),
      (∀ x : Market,
        (x ∈ st.fullyDeterministic ∨ x ∈ st.needsCategoryOnly ∨
          x ∈ st.needsShortNameOnly ∨ x ∈ st.needsBoth) →
        cache.lookup x.conditionId = none) →
      ∀ x : Market,
        (x ∈ (markets.foldl (splitStep jp cache) st).fullyDeterministic ∨
          x ∈ (markets.foldl (splitStep jp cache) st).needsCategoryOnly ∨
          x ∈ (markets.foldl (splitStep jp cache) st).needsShortNameOnly ∨
          x ∈ (markets.foldl (splitStep jp cache) st).needsBoth) →
        cache.lookup x.conditionId = none := by
    intro st hst
    refine foldl_preserves (splitStep jp cache)
      (fun st => ∀ x : Market,
        (x ∈ st.fullyDeterministic ∨ x ∈ st.needsCategoryOnly ∨
          x ∈ st.needsShortNameOnly ∨ x ∈ st.needsBoth) →
        cache.lookup x.conditionId = none) ?_ markets st hst
    intro s m hs x hx
    unfold splitStep at hx
    cases hcache : cache.lookup m.conditionId with
    | some cached =>
      rw [hcache] at hx
      exact hs x (by simpa using hx)
    | none =>
      rw [hcache] at hx
      by_cases h1 : truthyOptStr (inferShortName jp m) &&
          (inferSapienceCategorySlug m != "unknown")
      · rw [if_pos h1] at hx
        simp only [List.mem_append, List.mem_singleton] at hx
        rcases hx with (hx | rfl) | hx | hx | hx
        · exact hs x (Or.inl hx)
        · exact hcache
        · exact hs x (Or.inr (Or.inl hx))
        · exact hs x (Or.inr (Or.inr (Or.inl hx)))
        · exact hs x (Or.inr (Or.inr (Or.inr hx)))
      · rw [if_neg h1] at hx
        by_cases h2 : truthyOptStr (inferShortName jp m)
        · rw [if_pos h2] at hx
          simp only [List.mem_append, List.mem_singleton] at hx
          rcases hx with hx | (hx | rfl) | hx | hx
          · exact hs x (Or.inl hx)
          · exact hs x (Or.inr (Or.inl hx))
          · exact hcache
          · exact hs x (Or.inr (Or.inr (Or.inl hx)))
          · exact hs x (Or.inr (Or.inr (Or.inr hx)))
        · rw [if_neg h2] at hx
          by_cases h3 : inferSapienceCategorySlug m != "unknown"
          · rw [if_pos h3] at hx
            simp only [List.mem_append, List.mem_singleton] at hx
            rcases hx with hx | hx | (hx | rfl) | hx
            · exact hs x (Or.inl hx)
            · exact hs x (Or.inr (Or.inl hx))
            · exact hs x (Or.inr (Or.inr (Or.inl hx)))
            · exact hcache
            · exact hs x (Or.inr (Or.inr (Or.inr hx)))
          · rw [if_neg h3] at hx
            simp only [List.mem_append, List.mem_singleton] at hx
            rcases hx with hx | hx | hx | (hx | rfl)
            · exact hs x (Or.inl hx)
            · exact hs x (Or.inr (Or.inl hx))
            · exact hs x (Or.inr (Or.inr (Or.inl hx)))
            · exact hs x (Or.inr (Or.inr (Or.inr hx)))
            · exact hcache
  intro x hx
  exact key ⟨[], [], [], [], [], []⟩ (by simp) x hx

/-- A split-pass fold over markets none of which carry the key leaves that
key's `results` entry untouched. -/
theorem split_foldl_results_frame (jp : JsonParse) (cache : OutputMap)
    (k : String) :
    ∀ (rest : List Market) (st : SplitState),
      (∀ x ∈ rest, x.conditionId ≠ k) →
      ((rest.foldl (splitStep jp cache) st).results.lookup k) =
        st.results.lookup k := by
  intro rest
  induction rest with
  | nil => intro st _; rfl
  | cons x xs ih =>
    intro st hne
    have hx : x.conditionId ≠ k := hne x (List.mem_cons_self x xs)
    have hxs : ∀ y ∈ xs, y.conditionId ≠ k :=
      fun y hy => hne y (List.mem_cons_of_mem x hy)
    rw [List.foldl_cons, ih (splitStep jp cache st x) hxs]
    unfold splitStep
    cases hcache : cache.lookup x.conditionId with
    | some cached =>
      simp only []
      exact lookup_mapSet_ne st.results k x.conditionId _ (fun h => hx h.symm)
    | none =>
      by_cases h1 : truthyOptStr (inferShortName jp x) &&
          (inferSapienceCategorySlug x != "unknown")
      · rw [if_pos h1]
      · rw [if_neg h1]
        by_cases h2 : truthyOptStr (inferShortName jp x)
        · rw [if_pos h2]
        · rw [if_neg h2]
          by_cases h3 : inferSapienceCategorySlug x != "unknown"
          · rw [if_pos h3]
          · rw [if_neg h3]

/-- On a cache hit, the split pass records exactly the cached entry refreshed
with the truthy deterministic short name and the known deterministic
category, provided no other input market shares the identifier. -/
theorem split_results_cache_hit (jp : JsonParse) (cache : OutputMap)
    (markets : List Market) (m : Market) (cached : MarketEnrichmentOutput)
    (hm : m ∈ markets) (hc : cache.lookup m.conditionId = some cached)
    (huniq : (markets.map Market.conditionId).Nodup) :
    (splitMarkets jp cache markets).results.lookup m.conditionId =
      some { cached with
        shortName :=
          if truthyOptStr (inferShortName jp m) then inferShortName jp m
          else cached.shortName
        category :=
          if inferSapienceCategorySlug m != "unknown" then
            inferSapienceCategorySlug m
          else cached.category } := by
  unfold splitMarkets
  have key : ∀ (rest : List Market) (st : SplitState), m ∈ rest →
      ((rest.map Market.conditionId).Nodup) →
      ((rest.foldl (splitStep jp cache) st).results.lookup m.conditionId) =
        some { cached with
          shortName :=
            if truthyOptStr (inferShortName jp m) then inferShortName jp m
            else cached.shortName
          category :=
            if inferSapienceCategorySlug m != "unknown" then
              inferSapienceCategorySlug m
            else cached.category } := by
    intro rest
    induction rest with
    | nil => intro st hmem; cases hmem
    | cons x xs ih =>
      intro st hmem hnodup
      simp only [List.map_cons, List.nodup_cons] at hnodup
      rcases List.mem_cons.mp hmem with rfl | hmem2
      · have hxs : ∀ y ∈ xs, y.conditionId ≠ m.conditionId := by
          intro y hy h
          exact hnodup.1 (h ▸ List.mem_map_of_mem Market.conditionId hy)
        rw [List.foldl_cons,
          split_foldl_results_frame jp cache m.conditionId xs _ hxs]
        unfold splitStep
        rw [hc]
        simp only []
        exact lookup_mapSet_self st.results m.conditionId _
      · exact ih (splitStep jp cache st x) hmem2 hnodup.2
  exact key markets _ hm huniq

/-- The fully-deterministic loop leaves untouched any key none of its
markets carry. -/
theorem processFullyDeterministic_results_frame (detData : List (String × DetData))
    (k : String) :
    ∀ (ms : List Market) (st : EnrichState), (∀ x ∈ ms, x.conditionId ≠ k) →
      ((processFullyDeterministic detData st ms).results.lookup k) =
        st.results.lookup k := by
  intro ms
  unfold processFullyDeterministic
  induction ms with
  | nil => intro st _; rfl
  | cons x xs ih =>
    intro st hne
    rw [List.foldl_cons, ih _ (fun y hy => hne y (List.mem_cons_of_mem x hy))]
    exact lookup_mapSet_ne st.results k x.conditionId _
      (fun h => hne x (List.mem_cons_self x xs) h.symm)

theorem fallbackMissing_results_frame (jp : JsonParse) (k : String) :
    ∀ (batch : List Market) (st : EnrichState),
      (∀ x ∈ batch, x.conditionId ≠ k) →
      ((fallbackMissing jp st batch).results.lookup k) = st.results.lookup k := by
  intro batch
  unfold fallbackMissing
  induction batch with
  | nil => intro st _; rfl
  | cons x xs ih =>
    intro st hne
    rw [List.foldl_cons, ih _ (fun y hy => hne y (List.mem_cons_of_mem x hy))]
    by_cases hsome : (st.results.lookup x.conditionId).isSome
    · rw [if_pos hsome]
    · rw [if_neg hsome]
      exact lookup_mapSet_ne st.results k x.conditionId _
        (fun h => hne x (List.mem_cons_self x xs) h.symm)

theorem fallbackCatch_results_frame (jp : JsonParse) (k : String)
    (batch : List Market) (st : EnrichState) (msg : String)
    (hne : ∀ x ∈ batch, x.conditionId ≠ k) :
    ((fallbackCatch jp st batch msg).results.lookup k) = st.results.lookup k := by
  unfold fallbackCatch
  simp only []
  have key : ∀ (bs : List Market) (s : EnrichState), (∀ x ∈ bs, x.conditionId ≠ k) →
      ((bs.foldl
        (fun st m =>
          if (st.results.lookup m.conditionId).isSome then st
          else
            { st with
              results := mapSet st.results m.conditionId (getFallbackEnrichment jp m) })
        s).results.lookup k) = s.results.lookup k := by
    intro bs
    induction bs with
    | nil => intro s _; rfl
    | cons x xs ih =>
      intro s hbs
      have hx : x.conditionId ≠ k := hbs x (List.mem_cons_self x xs)
      rw [List.foldl_cons, ih _ (fun y hy => hbs y (List.mem_cons_of_mem x hy))]
      by_cases hsome : (s.results.lookup x.conditionId).isSome
      · rw [if_pos hsome]
      · rw [if_neg hsome]
        exact lookup_mapSet_ne s.results k x.conditionId _ (fun h => hx h.symm)
  exact key batch _ hne

/-- One LLM batch leaves untouched any key that neither the batch's markets
carry nor — thanks to the output-wellformedness of the parsers — the oracle's
outputs can mention. -/
theorem processLLMBatch_results_frame {γ : Type} (jp : JsonParse)
    (oracle : List MarketEnrichmentInput → Except String (List γ))
    (applyOut : EnrichState → γ → EnrichState) (label : String) (k : String)
    (oid : γ → String)
    (happly : ∀ (st : EnrichState) (o : γ), oid o ≠ k →
      ((applyOut st o).results.lookup k) = st.results.lookup k)
    (houts : ∀ inputs outs, oracle inputs = .ok outs →
      ∀ o ∈ outs, oid o ∈ inputs.map MarketEnrichmentInput.conditionId)
    (st : EnrichState) (batchIndex : Nat) (batch : List Market)
    (hne : ∀ x ∈ batch, x.conditionId ≠ k) :
    ((processLLMBatch jp oracle applyOut label st batchIndex batch).results.lookup k) =
      st.results.lookup k := by
  unfold processLLMBatch
  cases horacle : oracle (batch.map (marketToEnrichmentInput jp)) with
  | ok outputs =>
    simp only []
    have houtid : ∀ o ∈ outputs, oid o ≠ k := by
      intro o ho h
      have := houts _ _ horacle o ho
      simp only [List.map_map] at this
      obtain ⟨x, hx, hxid⟩ := List.mem_map.mp this
      exact hne x hx (by rw [← hxid] at h; exact h)
    have key : ∀ (outs : List γ) (s : EnrichState), (∀ o ∈ outs, oid o ≠ k) →
        ((outs.foldl applyOut s).results.lookup k) = s.results.lookup k := by
      intro outs
      induction outs with
      | nil => intro s _; rfl
      | cons o os ih =>
        intro s hos
        rw [List.foldl_cons, ih _ (fun o2 ho2 => hos o2 (List.mem_cons_of_mem o ho2)),
          happly s o (hos o (List.mem_cons_self o os))]
    rw [fallbackMissing_results_frame jp k batch _ hne, key outputs st houtid]
  | error msg =>
    simp only []
    exact fallbackCatch_results_frame jp k batch st _ hne

theorem processLLMBatches_results_frame {γ : Type} (jp : JsonParse)
    (oracle : List MarketEnrichmentInput → Except String (List γ))
    (applyOut : EnrichState → γ → EnrichState) (label : String) (k : String)
    (oid : γ → String)
    (happly : ∀ (st : EnrichState) (o : γ), oid o ≠ k →
      ((applyOut st o).results.lookup k) = st.results.lookup k)
    (houts : ∀ inputs outs, oracle inputs = .ok outs →
      ∀ o ∈ outs, oid o ∈ inputs.map MarketEnrichmentInput.conditionId) :
    ∀ (batches : List (List Market)) (st : EnrichState) (idx : Nat),
      (∀ b ∈ batches, ∀ x ∈ b, x.conditionId ≠ k) →
      (((batches.foldl
          (fun (acc : EnrichState × Nat) batch =>
            (processLLMBatch jp oracle applyOut label acc.1 acc.2 batch, acc.2 + 1))
          (st, idx)).1).results.lookup k) = st.results.lookup k := by
  intro batches
  induction batches with
  | nil => intro st idx _; rfl
  | cons b bs ih =>
    intro st idx hb
    rw [List.foldl_cons,
      ih _ _ (fun b2 hb2 x hx => hb b2 (List.mem_cons_of_mem b hb2) x hx),
      processLLMBatch_results_frame jp oracle applyOut label k oid happly houts
        st idx b (hb b (List.mem_cons_self b bs))]

/-- Every member of every batch produced by `toBatches` is a member of the
batched list, and conversely. -/
theorem toBatches_join (xs : List Market) : (toBatches xs).flatten = xs := by
  have key : ∀ (n : Nat) (ys : List Market), ys.length ≤ n →
      (toBatchesGo n ys).flatten = ys := by
    intro n
    induction n with
    | zero =>
      intro ys hlen
      cases ys with
      | nil => rfl
      | cons y rest => simp at hlen
    | succ n ih =>
      intro ys hlen
      cases ys with
      | nil => rfl
      | cons y rest =>
        rw [toBatchesGo, List.flatten_cons,
          ih ((y :: rest).drop LLM_BATCH_SIZE)
            (by simp [LLM_BATCH_SIZE] at hlen ⊢; omega),
          List.take_append_drop]
  exact key xs.length xs (Nat.le_refl _)

theorem categorySection_results_frame (jp : JsonParse) (catO : CatOracle)
    (split : SplitState) (st : EnrichState) (k : String)
    (hne : ∀ x ∈ split.needsCategoryOnly, x.conditionId ≠ k)
    (hwf : ∀ inputs outs, catO inputs = .ok outs →
      ∀ o ∈ outs, o.conditionId ∈ inputs.map MarketEnrichmentInput.conditionId) :
    ((categorySection jp catO split st).results.lookup k) = st.results.lookup k := by
  unfold categorySection
  by_cases hg : 0 < split.needsCategoryOnly.length
  · rw [if_pos hg]
    exact processLLMBatches_results_frame jp catO
      (applyCategoryOutput split.deterministicData) "Category batch" k
      CategoryOutput.conditionId
      (fun s o hno =>
        lookup_mapSet_ne s.results k o.conditionId _ (fun h => hno h.symm))
      hwf (toBatches split.needsCategoryOnly) st 0
      (fun b hb x hx => hne x (by
        have hmem : x ∈ (toBatches split.needsCategoryOnly).flatten :=
          List.mem_flatten.mpr ⟨b, hb, hx⟩
        rwa [toBatches_join] at hmem))
  · rw [if_neg hg]

theorem shortNameSection_results_frame (jp : JsonParse) (nameO : NameOracle)
    (split : SplitState) (st : EnrichState) (k : String)
    (hne : ∀ x ∈ split.needsShortNameOnly, x.conditionId ≠ k)
    (hwf : ∀ inputs outs, nameO inputs = .ok outs →
      ∀ o ∈ outs, o.conditionId ∈ inputs.map MarketEnrichmentInput.conditionId) :
    ((shortNameSection jp nameO split st).results.lookup k) = st.results.lookup k := by
  unfold shortNameSection
  by_cases hg : 0 < split.needsShortNameOnly.length
  · rw [if_pos hg]
    exact processLLMBatches_results_frame jp nameO
      (applyShortNameOutput split.deterministicData) "ShortName-only batch" k
      ShortNameOnlyOutput.conditionId
      (fun s o hno =>
        lookup_mapSet_ne s.results k o.conditionId _ (fun h => hno h.symm))
      hwf (toBatches split.needsShortNameOnly) st 0
      (fun b hb x hx => hne x (by
        have hmem : x ∈ (toBatches split.needsShortNameOnly).flatten :=
          List.mem_flatten.mpr ⟨b, hb, hx⟩
        rwa [toBatches_join] at hmem))
  · rw [if_neg hg]

theorem bothSection_results_frame (jp : JsonParse) (bothO : BothOracle)
    (split : SplitState) (st : EnrichState) (k : String)
    (hne : ∀ x ∈ split.needsBoth, x.conditionId ≠ k)
    (hwf : ∀ inputs outs, bothO inputs = .ok outs →
      ∀ o ∈ outs, o.conditionId ∈ inputs.map MarketEnrichmentInput.conditionId) :
    ((bothSection jp bothO split st).results.lookup k) = st.results.lookup k := by
  unfold bothSection
  by_cases hg : 0 < split.needsBoth.length
  · rw [if_pos hg]
    exact processLLMBatches_results_frame jp bothO
      applyBothOutput "Both batch" k
      MarketEnrichmentOutput.conditionId
      (fun s o hno =>
        lookup_mapSet_ne s.results k o.conditionId _ (fun h => hno h.symm))
      hwf (toBatches split.needsBoth) st 0
      (fun b hb x hx => hne x (by
        have hmem : x ∈ (toBatches split.needsBoth).flatten :=
          List.mem_flatten.mpr ⟨b, hb, hx⟩
        rwa [toBatches_join] at hmem))
  · rw [if_neg hg]

/-- C3 (amended): on a cache hit the orchestrator does not leave the cached
entry untouched — the emitted result is the cached entry with a truthy newly
derivable deterministic short name *overriding* the cached short name and a
known (non-`"unknown"`) deterministic category overriding the cached
category; only fields that are not newly derivable keep their cached values.
Stated for inputs with pairwise-distinct identifiers and oracles that (like
the source response parsers) only emit identifiers they were given. -/
theorem C3_cache_hit_deterministic_override (jp : JsonParse) (catO : CatOracle)
    (nameO : NameOracle) (bothO : BothOracle) (cache : OutputMap)
    (markets : List Market) (m : Market) (cached : MarketEnrichmentOutput)
    (hm : m ∈ markets) (hc : cache.lookup m.conditionId = some cached)
    (huniq : (markets.map Market.conditionId).Nodup)
    (hcatwf : ∀ inputs outs, catO inputs = .ok outs →
      ∀ o ∈ outs, o.conditionId ∈ inputs.map MarketEnrichmentInput.conditionId)
    (hnamewf : ∀ inputs outs, nameO inputs = .ok outs →
      ∀ o ∈ outs, o.conditionId ∈ inputs.map MarketEnrichmentInput.conditionId)
    (hbothwf : ∀ inputs outs, bothO inputs = .ok outs →
      ∀ o ∈ outs, o.conditionId ∈ inputs.map MarketEnrichmentInput.conditionId) :
    (enrichMarkets jp catO nameO bothO cache markets).results.lookup m.conditionId =
      some { cached with
        shortName :=
          if truthyOptStr (inferShortName jp m) then inferShortName jp m
          else cached.shortName
        category :=
          if inferSapienceCategorySlug m != "unknown" then
            inferSapienceCategorySlug m
          else cached.category } := by
  have hb1 : ∀ x ∈ (splitMarkets jp cache markets).fullyDeterministic,
      x.conditionId ≠ m.conditionId := by
    intro x hx h
    have := split_bucket_cache_miss jp cache markets x (Or.inl hx)
    rw [h, hc] at this
    cases this
  have hb2 : ∀ x ∈ (splitMarkets jp cache markets).needsCategoryOnly,
      x.conditionId ≠ m.conditionId := by
    intro x hx h
    have := split_bucket_cache_miss jp cache markets x (Or.inr (Or.inl hx))
    rw [h, hc] at this
    cases this
  have hb3 : ∀ x ∈ (splitMarkets jp cache markets).needsShortNameOnly,
      x.conditionId ≠ m.conditionId := by
    intro x hx h
    have := split_bucket_cache_miss jp cache markets x (Or.inr (Or.inr (Or.inl hx)))
    rw [h, hc] at this
    cases this
  have hb4 : ∀ x ∈ (splitMarkets jp cache markets).needsBoth,
      x.conditionId ≠ m.conditionId := by
    intro x hx h
    have := split_bucket_cache_miss jp cache markets x
      (Or.inr (Or.inr (Or.inr hx)))
    rw [h, hc] at this
    cases this
  have hgoal : enrichMarkets jp catO nameO bothO cache markets =
      bothSection jp bothO (splitMarkets jp cache markets)
        (shortNameSection jp nameO (splitMarkets jp cache markets)
          (categorySection jp catO (splitMarkets jp cache markets)
            (processFullyDeterministic
              (splitMarkets jp cache markets).deterministicData
              ⟨(splitMarkets jp cache markets).results, cache, [], false⟩
              (splitMarkets jp cache markets).fullyDeterministic))) := rfl
  rw [hgoal,
    bothSection_results_frame jp bothO (splitMarkets jp cache markets) _
      m.conditionId hb4 hbothwf,
    shortNameSection_results_frame jp nameO (splitMarkets jp cache markets) _
      m.conditionId hb3 hnamewf,
    categorySection_results_frame jp catO (splitMarkets jp cache markets) _
      m.conditionId hb2 hcatwf,
    processFullyDeterministic_results_frame
      (splitMarkets jp cache markets).deterministicData m.conditionId
      (splitMarkets jp cache markets).fullyDeterministic _ hb1]
  exact split_results_cache_hit jp cache markets m cached hm hc huniq

theorem C3_cache_hit_deterministic_override_witness :
    ((enrichMarkets jpThrow catFailOracle nameFailOracle bothOkOracle []
        [quxMarket]).cache.lookup "id1" =
      some { conditionId := "id1", category := "culture",
             shortName := some "LLM name" }) ∧
    (enrichMarkets jpThrow catFailOracle nameFailOracle bothFailOracle
        (enrichMarkets jpThrow catFailOracle nameFailOracle bothOkOracle []
          [quxMarket]).cache
        [lakersMarket]).results.lookup "id1" =
      some { conditionId := "id1", category := "sports",
             shortName := some "LAL win vs BOS" } :=
  ⟨rfl, by
    have := C3_cache_hit_deterministic_override jpThrow catFailOracle
      nameFailOracle bothFailOracle
      (enrichMarkets jpThrow catFailOracle nameFailOracle bothOkOracle []
        [quxMarket]).cache
      [lakersMarket] lakersMarket
      { conditionId := "id1", category := "culture", shortName := some "LLM name" }
      (List.mem_singleton.mpr rfl) rfl (by decide)
      (fun inputs outs h => by cases h)
      (fun inputs outs h => by cases h)
      (fun inputs outs h => by cases h)
    simpa using this⟩

/-- C3 (counterexample to the claim as stated): the cached LLM-derived
short name `"LLM name"` for `"id1"` *is* overwritten on a cache hit — the
result emitted for the second run's market carries the newly derivable
deterministic short name `"LAL win vs BOS"`, not the cached one. -/
theorem C3_cached_shortName_overwritten :
    ((enrichMarkets jpThrow catFailOracle nameFailOracle bothOkOracle []
        [quxMarket]).cache.lookup "id1").map MarketEnrichmentOutput.shortName =
      some (some "LLM name") ∧
    ((enrichMarkets jpThrow catFailOracle nameFailOracle bothFailOracle
        (enrichMarkets jpThrow catFailOracle nameFailOracle bothOkOracle []
          [quxMarket]).cache
        [lakersMarket]).results.lookup "id1").map MarketEnrichmentOutput.shortName =
      some (some "LAL win vs BOS") ∧
    some (some "LAL win vs BOS") ≠
      (some (some "LLM name") : Option (Option String)) :=
  ⟨rfl, rfl, by decide⟩

/-! ### Preservation machinery for the orchestrator

Every mutation of the `results` map anywhere in `enrichMarkets` is a
`mapSet`; any property of the map closed under `mapSet` is therefore
preserved by every phase. Instantiated below with "the key `k` is present"
(monotonicity) and "the keys are pairwise distinct". -/

def MapClosed (P : OutputMap → Prop) : Prop :=
  ∀ (mm : OutputMap) (k : String) (v : MarketEnrichmentOutput), P mm → P (mapSet mm k v)

theorem pres_fallbackStep (jp : JsonParse) (P : OutputMap → Prop)
    (hP : MapClosed P) (s : EnrichState) (m : Market) (h : P s.results) :
    P ((fallbackStep jp s m).results) := by
  unfold fallbackStep
  by_cases hsome : (s.results.lookup m.conditionId).isSome
  · rwa [if_pos hsome]
  · rw [if_neg hsome]
    exact hP _ _ _ h

theorem pres_fallbackMissing (jp : JsonParse) (P : OutputMap → Prop)
    (hP : MapClosed P) (batch : List Market) (st : EnrichState)
    (h : P st.results) : P ((fallbackMissing jp st batch).results) := by
  unfold fallbackMissing
  refine foldl_preserves _ (fun s => P s.results) ?_ batch st h
  intro s m hs
  by_cases hsome : (s.results.lookup m.conditionId).isSome
  · rwa [if_pos hsome]
  · rw [if_neg hsome]
    exact hP _ _ _ hs

theorem pres_fallbackCatch (jp : JsonParse) (P : OutputMap → Prop)
    (hP : MapClosed P) (batch : List Market) (st : EnrichState) (msg : String)
    (h : P st.results) : P ((fallbackCatch jp st batch msg).results) := by
  unfold fallbackCatch
  show P ((batch.foldl (fallbackStep jp)
    { st with errors := st.errors ++ [msg] }).results)
  exact foldl_preserves _ (fun s => P s.results)
    (fun s m hs => pres_fallbackStep jp P hP s m hs) batch
    { st with errors := st.errors ++ [msg] } h

theorem pres_processLLMBatch {γ : Type} (jp : JsonParse)
    (oracle : List MarketEnrichmentInput → Except String (List γ))
    (applyOut : EnrichState → γ → EnrichState) (label : String)
    (P : OutputMap → Prop) (hP : MapClosed P)
    (happly : ∀ (s : EnrichState) (o : γ), P s.results → P ((applyOut s o).results))
    (st : EnrichState) (idx : Nat) (batch : List Market) (h : P st.results) :
    P ((processLLMBatch jp oracle applyOut label st idx batch).results) := by
  unfold processLLMBatch
  cases horacle : oracle (batch.map (marketToEnrichmentInput jp)) with
  | ok outputs =>
    exact pres_fallbackMissing jp P hP batch _
      (foldl_preserves _ (fun s => P s.results) happly outputs st h)
  | error msg =>
    exact pres_fallbackCatch jp P hP batch st _ h

theorem pres_processLLMBatches {γ : Type} (jp : JsonParse)
    (oracle : List MarketEnrichmentInput → Except String (List γ))
    (applyOut : EnrichState → γ → EnrichState) (label : String)
    (P : OutputMap → Prop) (hP : MapClosed P)
    (happly : ∀ (s : EnrichState) (o : γ), P s.results → P ((applyOut s o).results)) :
    ∀ (batches : List (List Market)) (st : EnrichState) (idx : Nat),
      P st.results →
      P (((batches.foldl
          (fun (acc : EnrichState × Nat) batch =>
            (processLLMBatch jp oracle applyOut label acc.1 acc.2 batch, acc.2 + 1))
          (st, idx)).1).results) := by
  intro batches
  induction batches with
  | nil => intro st idx h; exact h
  | cons b bs ih =>
    intro st idx h
    rw [List.foldl_cons]
    exact ih _ _ (pres_processLLMBatch jp oracle applyOut label P hP happly st idx b h)

theorem pres_applyCategoryOutput (detData : List (String × DetData))
    (P : OutputMap → Prop) (hP : MapClosed P) (s : EnrichState)
    (o : CategoryOutput) (h : P s.results) :
    P ((applyCategoryOutput detData s o).results) := hP _ _ _ h

theorem pres_applyShortNameOutput (detData : List (String × DetData))
    (P : OutputMap → Prop) (hP : MapClosed P) (s : EnrichState)
    (o : ShortNameOnlyOutput) (h : P s.results) :
    P ((applyShortNameOutput detData s o).results) := hP _ _ _ h

theorem pres_applyBothOutput (P : OutputMap → Prop) (hP : MapClosed P)
    (s : EnrichState) (o : MarketEnrichmentOutput) (h : P s.results) :
    P ((applyBothOutput s o).results) := hP _ _ _ h

theorem pres_categorySection (jp : JsonParse) (catO : CatOracle)
    (split : SplitState) (P : OutputMap → Prop) (hP : MapClosed P)
    (st : EnrichState) (h : P st.results) :
    P ((categorySection jp catO split st).results) := by
  unfold categorySection
  by_cases hg : 0 < split.needsCategoryOnly.length
  · rw [if_pos hg]
    exact pres_processLLMBatches jp catO _ _ P hP
      (pres_applyCategoryOutput split.deterministicData P hP) _ st 0 h
  · rwa [if_neg hg]

theorem pres_shortNameSection (jp : JsonParse) (nameO : NameOracle)
    (split : SplitState) (P : OutputMap → Prop) (hP : MapClosed P)
    (st : EnrichState) (h : P st.results) :
    P ((shortNameSection jp nameO split st).results) := by
  unfold shortNameSection
  by_cases hg : 0 < split.needsShortNameOnly.length
  · rw [if_pos hg]
    exact pres_processLLMBatches jp nameO _ _ P hP
      (pres_applyShortNameOutput split.deterministicData P hP) _ st 0 h
  · rwa [if_neg hg]

theorem pres_bothSection (jp : JsonParse) (bothO : BothOracle)
    (split : SplitState) (P : OutputMap → Prop) (hP : MapClosed P)
    (st : EnrichState) (h : P st.results) :
    P ((bothSection jp bothO split st).results) := by
  unfold bothSection
  by_cases hg : 0 < split.needsBoth.length
  · rw [if_pos hg]
    exact pres_processLLMBatches jp bothO _ _ P hP
      (pres_applyBothOutput P hP) _ st 0 h
  · rwa [if_neg hg]

theorem pres_processFullyDeterministic (detData : List (String × DetData))
    (P : OutputMap → Prop) (hP : MapClosed P) (ms : List Market)
    (st : EnrichState) (h : P st.results) :
    P ((processFullyDeterministic detData st ms).results) := by
  unfold processFullyDeterministic
  refine foldl_preserves _ (fun s => P s.results) ?_ ms st h
  intro s m hs
  exact hP _ _ _ hs

theorem pres_splitStep (jp : JsonParse) (cache : OutputMap)
    (P : OutputMap → Prop) (hP : MapClosed P) (st : SplitState) (m : Market)
    (h : P st.results) : P ((splitStep jp cache st m).results) := by
  unfold splitStep
  cases hcache : cache.lookup m.conditionId with
  | some cached => exact hP _ _ _ h
  | none =>
    by_cases h1 : truthyOptStr (inferShortName jp m) &&
        (inferSapienceCategorySlug m != "unknown")
    · rwa [if_pos h1]
    · rw [if_neg h1]
      by_cases h2 : truthyOptStr (inferShortName jp m)
      · rwa [if_pos h2]
      · rw [if_neg h2]
        by_cases h3 : inferSapienceCategorySlug m != "unknown"
        · rwa [if_pos h3]
        · rwa [if_neg h3]

theorem pres_splitMarkets (jp : JsonParse) (cache : OutputMap)
    (P : OutputMap → Prop) (hP : MapClosed P) (markets : List Market)
    (h : P []) : P ((splitMarkets jp cache markets).results) := by
  unfold splitMarkets
  exact foldl_preserves _ (fun st => P st.results)
    (fun st m hs => pres_splitStep jp cache P hP st m hs) markets
    ⟨[], [], [], [], [], []⟩ h

/-- The two `MapClosed` instances used below. -/
theorem mapClosed_isSome (k : String) :
    MapClosed (fun mm => ((mm.lookup k).isSome : Prop)) :=
  fun mm k2 v h => isSome_lookup_mapSet mm k k2 v h

theorem mapClosed_nodup :
    MapClosed (fun mm => (mm.map Prod.fst).Nodup) :=
  fun mm k v h => nodup_keys_mapSet mm k v h

/-! ### Coverage lemmas: each phase resolves the records it owns -/

theorem fallbackStep_foldl_covers (jp : JsonParse) :
    ∀ (batch : List Market) (st : EnrichState) (m : Market), m ∈ batch →
      (((batch.foldl (fallbackStep jp) st).results.lookup m.conditionId)).isSome := by
  intro batch
  induction batch with
  | nil => intro st m hm; cases hm
  | cons x xs ih =>
    intro st m hm
    rw [List.foldl_cons]
    rcases List.mem_cons.mp hm with rfl | hm2
    · refine foldl_preserves _
        (fun (s : EnrichState) => ((s.results.lookup m.conditionId).isSome = true)) ?_ xs _ ?_
      · intro s a hs
        exact pres_fallbackStep jp
          (fun mm => ((mm.lookup m.conditionId).isSome = true))
          (fun mm k v h => isSome_lookup_mapSet mm m.conditionId k v h) s a hs
      · unfold fallbackStep
        by_cases hsome : (st.results.lookup m.conditionId).isSome
        · rwa [if_pos hsome]
        · rw [if_neg hsome]
          exact isSome_lookup_mapSet_self _ _ _
    · exact ih _ m hm2

theorem fallbackMissing_covers (jp : JsonParse) :
    ∀ (batch : List Market) (st : EnrichState) (m : Market), m ∈ batch →
      (((fallbackMissing jp st batch).results.lookup m.conditionId)).isSome := by
  intro batch
  unfold fallbackMissing
  induction batch with
  | nil => intro st m hm; cases hm
  | cons x xs ih =>
    intro st m hm
    rw [List.foldl_cons]
    rcases List.mem_cons.mp hm with rfl | hm2
    · refine foldl_preserves _
        (fun (s : EnrichState) => ((s.results.lookup m.conditionId).isSome = true)) ?_ xs _ ?_
      · intro s a hs
        by_cases hsome : (s.results.lookup a.conditionId).isSome
        · rwa [if_pos hsome]
        · rw [if_neg hsome]
          exact isSome_lookup_mapSet _ _ _ _ hs
      · by_cases hsome : (st.results.lookup m.conditionId).isSome
        · rwa [if_pos hsome]
        · rw [if_neg hsome]
          exact isSome_lookup_mapSet_self _ _ _
    · exact ih _ m hm2

theorem fallbackCatch_covers (jp : JsonParse) (batch : List Market)
    (st : EnrichState) (msg : String) (m : Market) (hm : m ∈ batch) :
    (((fallbackCatch jp st batch msg).results.lookup m.conditionId)).isSome := by
  unfold fallbackCatch
  show (((batch.foldl (fallbackStep jp)
    { st with errors := st.errors ++ [msg] }).results.lookup m.conditionId)).isSome
  exact fallbackStep_foldl_covers jp batch _ m hm

theorem processLLMBatch_covers {γ : Type} (jp : JsonParse)
    (oracle : List MarketEnrichmentInput → Except String (List γ))
    (applyOut : EnrichState → γ → EnrichState) (label : String)
    (st : EnrichState) (idx : Nat) (batch : List Market) (m : Market)
    (hm : m ∈ batch) :
    (((processLLMBatch jp oracle applyOut label st idx batch).results.lookup
      m.conditionId)).isSome := by
  unfold processLLMBatch
  cases horacle : oracle (batch.map (marketToEnrichmentInput jp)) with
  | ok outputs => exact fallbackMissing_covers jp batch _ m hm
  | error msg => exact fallbackCatch_covers jp batch st _ m hm

theorem processLLMBatches_covers {γ : Type} (jp : JsonParse)
    (oracle : List MarketEnrichmentInput → Except String (List γ))
    (applyOut : EnrichState → γ → EnrichState) (label : String)
    (happly : ∀ (s : EnrichState) (o : γ) (k : String),
      ((s.results.lookup k).isSome) → (((applyOut s o).results.lookup k).isSome)) :
    ∀ (batches : List (List Market)) (st : EnrichState) (idx : Nat)
      (b : List Market) (m : Market), b ∈ batches → m ∈ b →
      ((((batches.foldl
          (fun (acc : EnrichState × Nat) batch =>
            (processLLMBatch jp oracle applyOut label acc.1 acc.2 batch, acc.2 + 1))
          (st, idx)).1).results.lookup m.conditionId)).isSome := by
  intro batches
  induction batches with
  | nil => intro st idx b m hb; cases hb
  | cons b2 bs ih =>
    intro st idx b m hb hm
    rw [List.foldl_cons]
    rcases List.mem_cons.mp hb with rfl | hb2
    · exact pres_processLLMBatches jp oracle applyOut label
        (fun mm => ((mm.lookup m.conditionId).isSome = true))
        (fun mm k v h => isSome_lookup_mapSet mm m.conditionId k v h)
        (fun s o hs => happly s o m.conditionId hs) bs _ _
        (processLLMBatch_covers jp oracle applyOut label st idx b m hm)
    · exact ih _ _ b m hb2 hm

theorem categorySection_covers (jp : JsonParse) (catO : CatOracle)
    (split : SplitState) (st : EnrichState) (m : Market)
    (hm : m ∈ split.needsCategoryOnly) :
    (((categorySection jp catO split st).results.lookup m.conditionId)).isSome := by
  unfold categorySection
  have hg : 0 < split.needsCategoryOnly.length :=
    List.length_pos.mpr (List.ne_nil_of_mem hm)
  rw [if_pos hg]
  have hmem : m ∈ (toBatches split.needsCategoryOnly).flatten := by
    rw [toBatches_join]; exact hm
  obtain ⟨b, hb, hmb⟩ := List.mem_flatten.mp hmem
  exact processLLMBatches_covers jp catO _ _
    (fun s o k hs => isSome_lookup_mapSet _ _ _ _ hs)
    (toBatches split.needsCategoryOnly) st 0 b m hb hmb

theorem shortNameSection_covers (jp : JsonParse) (nameO : NameOracle)
    (split : SplitState) (st : EnrichState) (m : Market)
    (hm : m ∈ split.needsShortNameOnly) :
    (((shortNameSection jp nameO split st).results.lookup m.conditionId)).isSome := by
  unfold shortNameSection
  have hg : 0 < split.needsShortNameOnly.length :=
    List.length_pos.mpr (List.ne_nil_of_mem hm)
  rw [if_pos hg]
  have hmem : m ∈ (toBatches split.needsShortNameOnly).flatten := by
    rw [toBatches_join]; exact hm
  obtain ⟨b, hb, hmb⟩ := List.mem_flatten.mp hmem
  exact processLLMBatches_covers jp nameO _ _
    (fun s o k hs => isSome_lookup_mapSet _ _ _ _ hs)
    (toBatches split.needsShortNameOnly) st 0 b m hb hmb

theorem bothSection_covers (jp : JsonParse) (bothO : BothOracle)
    (split : SplitState) (st : EnrichState) (m : Market)
    (hm : m ∈ split.needsBoth) :
    (((bothSection jp bothO split st).results.lookup m.conditionId)).isSome := by
  unfold bothSection
  have hg : 0 < split.needsBoth.length :=
    List.length_pos.mpr (List.ne_nil_of_mem hm)
  rw [if_pos hg]
  have hmem : m ∈ (toBatches split.needsBoth).flatten := by
    rw [toBatches_join]; exact hm
  obtain ⟨b, hb, hmb⟩ := List.mem_flatten.mp hmem
  exact processLLMBatches_covers jp bothO _ _
    (fun s o k hs => isSome_lookup_mapSet _ _ _ _ hs)
    (toBatches split.needsBoth) st 0 b m hb hmb

theorem processFullyDeterministic_covers (detData : List (String × DetData)) :
    ∀ (ms : List Market) (st : EnrichState) (m : Market), m ∈ ms →
      (((processFullyDeterministic detData st ms).results.lookup
        m.conditionId)).isSome := by
  intro ms
  unfold processFullyDeterministic
  induction ms with
  | nil => intro st m hm; cases hm
  | cons x xs ih =>
    intro st m hm
    rw [List.foldl_cons]
    rcases List.mem_cons.mp hm with rfl | hm2
    · refine foldl_preserves _
        (fun (s : EnrichState) => ((s.results.lookup m.conditionId).isSome = true)) ?_ xs _ ?_
      · intro s a hs
        exact isSome_lookup_mapSet _ _ _ _ hs
      · exact isSome_lookup_mapSet_self _ _ _
    · exact ih _ m hm2

/-- After the partitioning pass, every input market is either already
resolved (cache hit) or placed in exactly one of the four buckets. -/
theorem split_covered (jp : JsonParse) (cache : OutputMap)
    (markets : List Market) :
    ∀ m ∈ markets,
      (((splitMarkets jp cache markets).results.lookup m.conditionId)).isSome ∨
      m ∈ (splitMarkets jp cache markets).fullyDeterministic ∨
      m ∈ (splitMarkets jp cache markets).needsCategoryOnly ∨
      m ∈ (splitMarkets jp cache markets).needsShortNameOnly ∨
      m ∈ (splitMarkets jp cache markets).needsBoth := by
  unfold splitMarkets
  have hstepQ : ∀ (m : Market) (st : SplitState) (x : Market),
      ((((st.results.lookup m.conditionId)).isSome) ∨
        m ∈ st.fullyDeterministic ∨ m ∈ st.needsCategoryOnly ∨
        m ∈ st.needsShortNameOnly ∨ m ∈ st.needsBoth) →
      ((((splitStep jp cache st x).results.lookup m.conditionId)).isSome ∨
        m ∈ (splitStep jp cache st x).fullyDeterministic ∨
        m ∈ (splitStep jp cache st x).needsCategoryOnly ∨
        m ∈ (splitStep jp cache st x).needsShortNameOnly ∨
        m ∈ (splitStep jp cache st x).needsBoth) := by
    intro m st x hq
    unfold splitStep
    cases hcache : cache.lookup x.conditionId with
    | some cached =>
      rcases hq with hq | hq
      · exact Or.inl (isSome_lookup_mapSet _ _ _ _ hq)
      · exact Or.inr hq
    | none =>
      by_cases h1 : truthyOptStr (inferShortName jp x) &&
          (inferSapienceCategorySlug x != "unknown")
      · rw [if_pos h1]
        rcases hq with hq | hq | hq | hq | hq
        · exact Or.inl hq
        · exact Or.inr (Or.inl (List.mem_append_left _ hq))
        · exact Or.inr (Or.inr (Or.inl hq))
        · exact Or.inr (Or.inr (Or.inr (Or.inl hq)))
        · exact Or.inr (Or.inr (Or.inr (Or.inr hq)))
      · rw [if_neg h1]
        by_cases h2 : truthyOptStr (inferShortName jp x)
        · rw [if_pos h2]
          rcases hq with hq | hq | hq | hq | hq
          · exact Or.inl hq
          · exact Or.inr (Or.inl hq)
          · exact Or.inr (Or.inr (Or.inl (List.mem_append_left _ hq)))
          · exact Or.inr (Or.inr (Or.inr (Or.inl hq)))
          · exact Or.inr (Or.inr (Or.inr (Or.inr hq)))
        · rw [if_neg h2]
          by_cases h3 : inferSapienceCategorySlug x != "unknown"
          · rw [if_pos h3]
            rcases hq with hq | hq | hq | hq | hq
            · exact Or.inl hq
            · exact Or.inr (Or.inl hq)
            · exact Or.inr (Or.inr (Or.inl hq))
            · exact Or.inr (Or.inr (Or.inr (Or.inl (List.mem_append_left _ hq))))
            · exact Or.inr (Or.inr (Or.inr (Or.inr hq)))
          · rw [if_neg h3]
            rcases hq with hq | hq | hq | hq | hq
            · exact Or.inl hq
            · exact Or.inr (Or.inl hq)
            · exact Or.inr (Or.inr (Or.inl hq))
            · exact Or.inr (Or.inr (Or.inr (Or.inl hq)))
            · exact Or.inr (Or.inr (Or.inr (Or.inr (List.mem_append_left _ hq))))
  have hestab : ∀ (st : SplitState) (m : Market),
      ((((splitStep jp cache st m).results.lookup m.conditionId)).isSome ∨
        m ∈ (splitStep jp cache st m).fullyDeterministic ∨
        m ∈ (splitStep jp cache st m).needsCategoryOnly ∨
        m ∈ (splitStep jp cache st m).needsShortNameOnly ∨
        m ∈ (splitStep jp cache st m).needsBoth) := by
    intro st m
    unfold splitStep
    cases hcache : cache.lookup m.conditionId with
    | some cached => exact Or.inl (isSome_lookup_mapSet_self _ _ _)
    | none =>
      by_cases h1 : truthyOptStr (inferShortName jp m) &&
          (inferSapienceCategorySlug m != "unknown")
      · rw [if_pos h1]
        exact Or.inr (Or.inl (List.mem_append_right _ (List.mem_singleton.mpr rfl)))
      · rw [if_neg h1]
        by_cases h2 : truthyOptStr (inferShortName jp m)
        · rw [if_pos h2]
          exact Or.inr (Or.inr (Or.inl
            (List.mem_append_right _ (List.mem_singleton.mpr rfl))))
        · rw [if_neg h2]
          by_cases h3 : inferSapienceCategorySlug m != "unknown"
          · rw [if_pos h3]
            exact Or.inr (Or.inr (Or.inr (Or.inl
              (List.mem_append_right _ (List.mem_singleton.mpr rfl)))))
          · rw [if_neg h3]
            exact Or.inr (Or.inr (Or.inr (Or.inr
              (List.mem_append_right _ (List.mem_singleton.mpr rfl)))))
  have key : ∀ (ms : List Market) (st : SplitState) (m : Market), m ∈ ms →
      ((((ms.foldl (splitStep jp cache) st).results.lookup m.conditionId)).isSome ∨
        m ∈ (ms.foldl (splitStep jp cache) st).fullyDeterministic ∨
        m ∈ (ms.foldl (splitStep jp cache) st).needsCategoryOnly ∨
        m ∈ (ms.foldl (splitStep jp cache) st).needsShortNameOnly ∨
        m ∈ (ms.foldl (splitStep jp cache) st).needsBoth) := by
    intro ms
    induction ms with
    | nil => intro st m hm; cases hm
    | cons x xs ih =>
      intro st m hm
      rw [List.foldl_cons]
      rcases List.mem_cons.mp hm with rfl | hm2
      · exact foldl_preserves _ _ (fun s a hq => hstepQ m s a hq) xs _
          (hestab st m)
      · exact ih _ m hm2
  intro m hm
  exact key markets _ m hm

/-! ### The failed-batch path: exact fallback values -/

theorem fallbackStep_foldl_frame (jp : JsonParse) :
    ∀ (batch : List Market) (st : EnrichState) (k : String),
      k ∉ batch.map Market.conditionId →
      ((batch.foldl (fallbackStep jp) st).results.lookup k) =
        st.results.lookup k := by
  intro batch
  induction batch with
  | nil => intro st k _; rfl
  | cons x xs ih =>
    intro st k hk
    rw [List.foldl_cons]
    have hkx : k ≠ x.conditionId := by
      intro hkeq
      exact hk (by rw [hkeq]; exact List.mem_cons_self _ _)
    have hkxs : k ∉ xs.map Market.conditionId := by
      intro hmem
      exact hk (List.mem_cons_of_mem _ hmem)
    rw [ih _ k hkxs]
    unfold fallbackStep
    by_cases hsome : (st.results.lookup x.conditionId).isSome
    · rw [if_pos hsome]
    · rw [if_neg hsome]
      exact lookup_mapSet_ne _ _ _ _ hkx

theorem fallbackStep_foldl_lookup (jp : JsonParse) :
    ∀ (batch : List Market) (st : EnrichState) (m : Market), m ∈ batch →
      (batch.map Market.conditionId).Nodup →
      st.results.lookup m.conditionId = none →
      ((batch.foldl (fallbackStep jp) st).results.lookup m.conditionId) =
        some (getFallbackEnrichment jp m) := by
  intro batch
  induction batch with
  | nil => intro st m hm; cases hm
  | cons x xs ih =>
    intro st m hm hnodup hnone
    have hx : x.conditionId ∉ xs.map Market.conditionId :=
      (List.nodup_cons.mp hnodup).1
    have hxs : (xs.map Market.conditionId).Nodup :=
      (List.nodup_cons.mp hnodup).2
    rw [List.foldl_cons]
    rcases List.mem_cons.mp hm with rfl | hm2
    · rw [fallbackStep_foldl_frame jp xs _ m.conditionId hx]
      unfold fallbackStep
      rw [hnone]
      simp only [Option.isSome_none, Bool.false_eq_true, if_false]
      exact lookup_mapSet_self _ _ _
    · have hne : m.conditionId ≠ x.conditionId := by
        intro hkeq
        exact hx (hkeq ▸ List.mem_map_of_mem Market.conditionId hm2)
      refine ih _ m hm2 hxs ?_
      unfold fallbackStep
      by_cases hsome : (st.results.lookup x.conditionId).isSome
      · rwa [if_pos hsome]
      · rw [if_neg hsome]
        rw [lookup_mapSet_ne _ _ _ _ hne]
        exact hnone

theorem fallbackCatch_lookup (jp : JsonParse) (st : EnrichState)
    (batch : List Market) (msg : String) (m : Market) (hm : m ∈ batch)
    (hnodup : (batch.map Market.conditionId).Nodup)
    (hnone : st.results.lookup m.conditionId = none) :
    ((fallbackCatch jp st batch msg).results.lookup m.conditionId) =
      some (getFallbackEnrichment jp m) := by
  unfold fallbackCatch
  show ((batch.foldl (fallbackStep jp)
    { st with errors := st.errors ++ [msg] }).results.lookup m.conditionId) =
      some (getFallbackEnrichment jp m)
  exact fallbackStep_foldl_lookup jp batch _ m hm hnodup hnone

/-- C1: For every list of input markets passed to `enrichMarkets`, the
returned results map contains exactly one enrichment result for every input
market's identifier: (1) every input market's `conditionId` is present in
the results map, whatever the three LLM oracles and the cache do; (2) the
results map has no duplicate keys, so each identifier carries exactly one
result; (3) when an LLM batch call fails, the batch is handled by the
`catch` fallback path with the section's error message; (4) the fallback
path marks `usedFallback`, resolves every member of the failed batch, and
gives every not-yet-resolved member exactly the deterministic fallback
`getFallbackEnrichment` (best-effort category defaulting to
`'geopolitics'`, best-effort short name defaulting to the raw question). -/
theorem C1_enrichMarkets_every_input_resolved (jp : JsonParse)
    (catO : CatOracle) (nameO : NameOracle) (bothO : BothOracle)
    (cache : OutputMap) (markets : List Market) :
    (∀ m ∈ markets,
      (((enrichMarkets jp catO nameO bothO cache markets).results.lookup
        m.conditionId)).isSome) ∧
    (((enrichMarkets jp catO nameO bothO cache markets).results.map
      Prod.fst).Nodup) ∧
    (∀ (γ : Type) (oracle : List MarketEnrichmentInput → Except String (List γ))
      (applyOut : EnrichState → γ → EnrichState) (label : String)
      (st : EnrichState) (idx : Nat) (batch : List Market) (msg : String),
      oracle (batch.map (marketToEnrichmentInput jp)) = .error msg →
      processLLMBatch jp oracle applyOut label st idx batch =
        fallbackCatch jp st batch
          (label ++ " " ++ toString (idx + 1) ++ " failed: " ++ msg)) ∧
    (∀ (st : EnrichState) (batch : List Market) (msg : String),
      (fallbackCatch jp st batch msg).usedFallback = true ∧
      ∀ m ∈ batch,
        (((fallbackCatch jp st batch msg).results.lookup m.conditionId)).isSome ∧
        ((batch.map Market.conditionId).Nodup →
          st.results.lookup m.conditionId = none →
          ((fallbackCatch jp st batch msg).results.lookup m.conditionId) =
            some (getFallbackEnrichment jp m))) := by
  refine ⟨?_, ?_, ?_, ?_⟩
  · intro m hm
    have hcov := split_covered jp cache markets m hm
    unfold enrichMarkets
    dsimp only
    rcases hcov with hres | hfd | hcat | hname | hboth
    · exact pres_bothSection jp bothO _
        (fun mm => ((mm.lookup m.conditionId).isSome = true))
        (mapClosed_isSome m.conditionId) _
        (pres_shortNameSection jp nameO _
          (fun mm => ((mm.lookup m.conditionId).isSome = true))
          (mapClosed_isSome m.conditionId) _
          (pres_categorySection jp catO _
            (fun mm => ((mm.lookup m.conditionId).isSome = true))
            (mapClosed_isSome m.conditionId) _
            (pres_processFullyDeterministic _
              (fun mm => ((mm.lookup m.conditionId).isSome = true))
              (mapClosed_isSome m.conditionId) _ _ hres)))
    · exact pres_bothSection jp bothO _
        (fun mm => ((mm.lookup m.conditionId).isSome = true))
        (mapClosed_isSome m.conditionId) _
        (pres_shortNameSection jp nameO _
          (fun mm => ((mm.lookup m.conditionId).isSome = true))
          (mapClosed_isSome m.conditionId) _
          (pres_categorySection jp catO _
            (fun mm => ((mm.lookup m.conditionId).isSome = true))
            (mapClosed_isSome m.conditionId) _
            (processFullyDeterministic_covers _ _ _ m hfd)))
    · exact pres_bothSection jp bothO _
        (fun mm => ((mm.lookup m.conditionId).isSome = true))
        (mapClosed_isSome m.conditionId) _
        (pres_shortNameSection jp nameO _
          (fun mm => ((mm.lookup m.conditionId).isSome = true))
          (mapClosed_isSome m.conditionId) _
          (categorySection_covers jp catO _ _ m hcat))
    · exact pres_bothSection jp bothO _
        (fun mm => ((mm.lookup m.conditionId).isSome = true))
        (mapClosed_isSome m.conditionId) _
        (shortNameSection_covers jp nameO _ _ m hname)
    · exact bothSection_covers jp bothO _ _ m hboth
  · unfold enrichMarkets
    dsimp only
    exact pres_bothSection jp bothO _
      (fun mm => ((mm.map Prod.fst).Nodup)) mapClosed_nodup _
      (pres_shortNameSection jp nameO _
        (fun mm => ((mm.map Prod.fst).Nodup)) mapClosed_nodup _
        (pres_categorySection jp catO _
          (fun mm => ((mm.map Prod.fst).Nodup)) mapClosed_nodup _
          (pres_processFullyDeterministic _
            (fun mm => ((mm.map Prod.fst).Nodup)) mapClosed_nodup _ _
            (pres_splitMarkets jp cache
              (fun mm => ((mm.map Prod.fst).Nodup)) mapClosed_nodup markets
              List.nodup_nil))))
  · intro γ oracle applyOut label st idx batch msg h
    unfold processLLMBatch
    rw [h]
  · intro st batch msg
    refine ⟨rfl, ?_⟩
    intro m hm
    exact ⟨fallbackCatch_covers jp batch st msg m hm,
      fun hnodup hnone => fallbackCatch_lookup jp st batch msg m hm hnodup hnone⟩

/-- Concrete instance of C1: with a throwing JSON parser, empty cache and
all three oracles failing, one-market input still gets a result. -/
theorem C1_enrichMarkets_every_input_resolved_witness :
    (((enrichMarkets jpThrow catFailOracle nameFailOracle bothFailOracle []
      [lakersMarket]).results.lookup lakersMarket.conditionId)).isSome :=
  (C1_enrichMarkets_every_input_resolved jpThrow catFailOracle nameFailOracle
    bothFailOracle [] [lakersMarket]).1 lakersMarket
    (List.mem_singleton.mpr rfl)

end PolymarketKeeper
